import Mathlib

/-!
# File-system monitor (`main.go`): a shallow embedding

The monitor of `main.go` is embedded as a transition system.

* Go slices are modelled with an explicit heap of backing arrays, so that the
  aliasing behaviour of `append`, `make` and `copy` is visible.
* Each goroutine running `processEvents` is a program counter (`LoopPc`); the
  unbuffered channels `m.events` and `m.done` hold no data and are modelled as
  rendezvous steps between the two parties.
* Everything that `main.go` only imports (the `fsnotify` watcher, `filepath.Abs`,
  `os.Stat`, `time.Now`, the growth policy of `append`) is a parameter (`Env`) or
  an input of the step that uses it.
-/

namespace FSMonitor

/-! ## Data model -/

/-- FileEvent (main.go:15-19). The timestamp is a clock reading. -/
structure FileEvent where
  Path : String
  Operation : String
  Timestamp : Nat
deriving DecidableEq, Repr

/-- The zero value of `FileEvent`, which `make` fills fresh arrays with. -/
def zeroEvent : FileEvent := ⟨"", "", 0⟩

/-- A raw notification of the watcher (`fsnotify.Event`): a name and an operation code. -/
structure Notification where
  Name : String
  Op : Nat
deriving DecidableEq, Repr

/-- Outcome of `os.Stat`: file information (only `IsDir` is kept), the
not-exist error, or some other error. -/
inductive StatResult where
  | info (isDir : Bool)
  | notExist
  | otherErr (msg : String)
deriving DecidableEq, Repr

/-- The pair `os.Stat` + `os.IsNotExist(err)` of main.go:54: true exactly for the not-exist error
(false for a nil error and for every other error). -/
def IsNotExist : StatResult → Bool
  | .notExist => true
  | _ => false

/-- What the program imports rather than defines. -/
structure Env where
  /-- The method `Op.String` of fsnotify. -/
  opString : Nat → String
  /-- The function `filepath.Abs`: an error message or the absolute path. -/
  abs : String → Except String String
  /-- The function `os.Stat`. -/
  stat : String → StatResult
  /-- The method `watcher.Add`: `none` is a nil error. -/
  add : String → Option String
  /-- The function `fsnotify.NewWatcher`: `none` is a nil error. -/
  newWatcher : Option String
  /-- Spare capacity chosen by the runtime when `append` must reallocate
  (as a function of the old capacity). -/
  slack : Nat → Nat

/-! ## Go slices over a heap of backing arrays -/

/-- A slice header. All slices of the program start at offset 0 of their array. -/
structure Slice where
  ptr : Nat
  len : Nat
  cap : Nat
deriving DecidableEq, Repr

/-- The heap: backing arrays, addressed by position. -/
abbrev Heap := List (List FileEvent)

/-- The backing array at an address. -/
def Heap.array (h : Heap) (p : Nat) : List FileEvent := h.getD p []

/-- The elements a slice denotes. -/
def view (h : Heap) (s : Slice) : List FileEvent := (h.array s.ptr).take s.len

/-- Go `make([]FileEvent, n)`: a fresh array of `n` zero values. -/
def makeSlice (h : Heap) (n : Nat) : Slice × Heap :=
  (⟨h.length, n, n⟩, h ++ [List.replicate n zeroEvent])

/-- Go `copy(dst, src)`: copies `min(len(dst), len(src))` elements into the array of `dst`. -/
def copySlice (h : Heap) (dst src : Slice) : Heap :=
  let k := min dst.len src.len
  h.set dst.ptr ((view h src).take k ++ (h.array dst.ptr).drop k)

/-- Go `append(s, e)`: writes in place when there is spare capacity, and otherwise
allocates a fresh, sufficiently large array and copies. -/
def appendSlice (slack : Nat → Nat) (h : Heap) (s : Slice) (e : FileEvent) : Slice × Heap :=
  if s.len < s.cap then
    (⟨s.ptr, s.len + 1, s.cap⟩, h.set s.ptr ((h.array s.ptr).set s.len e))
  else
    (⟨h.length, s.len + 1, s.len + 1 + slack s.cap⟩,
      h ++ [view h s ++ e :: List.replicate (slack s.cap) zeroEvent])

/-- Go `s[i] = e` by a holder of the slice `s`; `none` is the index-out-of-range failure. -/
def storeAt (h : Heap) (s : Slice) (i : Nat) (e : FileEvent) : Option Heap :=
  if i < s.len then some (h.set s.ptr ((h.array s.ptr).set i e)) else none

/-! ## The monitor -/

/-- Program counter of one goroutine running `processEvents` (main.go:71-96). -/
inductive LoopPc where
  /-- Blocked in the `select` (line 73). -/
  | select
  /-- Took a notification and built `fileEvent` (lines 78-82); about to call `logEvent` (line 83). -/
  | logging (e : FileEvent)
  /-- Blocked in `m.events <- fileEvent` (line 84). -/
  | publishing (e : FileEvent)
  /-- Returned (lines 76, 88, 93). -/
  | exited
deriving DecidableEq, Repr

/-- Program counter of one call of `Stop` (main.go:115-118). -/
inductive StopPc where
  /-- Blocked in `m.done <- true` (line 116). -/
  | sending
  /-- Past the send, about to run `m.watcher.Close()` (line 117). -/
  | closing
  /-- Returned. -/
  | returned
deriving DecidableEq, Repr

/-- The fsnotify watcher as the monitor sees it. -/
structure Watcher where
  /-- Notifications the notifier holds ready for `watcher.Events`, oldest first. -/
  Events : List Notification
  /-- Errors the notifier holds ready for `watcher.Errors`, oldest first. -/
  Errors : List String
  /-- The channel `watcher.Events` has been closed. -/
  eventsClosed : Bool
  /-- The channel `watcher.Errors` has been closed. -/
  errorsClosed : Bool
  /-- Every argument `watcher.Add` was invoked with, in order. -/
  addCalls : List String
  /-- The paths whose registration succeeded. -/
  watched : List String
  /-- The method `watcher.Close` has been invoked. -/
  released : Bool
deriving DecidableEq, Repr

/-- The monitor together with the goroutines and the memory around it. -/
structure Sys where
  /-- Go memory holding the backing arrays of all event slices. -/
  heap : Heap
  /-- Field `m.watcher`. -/
  watcher : Watcher
  /-- Field `m.eventLog`. -/
  eventLog : Slice
  /-- The goroutines launched by `go m.processEvents()`, in launch order. -/
  loops : List LoopPc
  /-- What has been received from `m.events`: the receiving consumer and the event. -/
  received : List (Nat × FileEvent)
  /-- The calls of `Stop`, in call order. -/
  stops : List StopPc
  /-- Lines printed with `fmt.Printf`. -/
  stdout : List String
  /-- Messages reported with `log.Printf` (without the logger's date prefix). -/
  stderr : List String
deriving DecidableEq, Repr

/-- NewMonitor (main.go:31-43). -/
def NewMonitor (env : Env) : Except String Sys :=
  match env.newWatcher with
  | some err => .error ("failed to create watcher: " ++ err)
  | none =>
    let (sl, h) := makeSlice [] 0
    .ok { heap := h
          watcher := ⟨[], [], false, false, [], [], false⟩
          eventLog := sl
          loops := []
          received := []
          stops := []
          stdout := []
          stderr := [] }

/-- The state `NewMonitor` returns when the watcher can be created. -/
def newSys : Sys :=
  { heap := [[]]
    watcher := ⟨[], [], false, false, [], [], false⟩
    eventLog := ⟨0, 0, 0⟩
    loops := []
    received := []
    stops := []
    stdout := []
    stderr := [] }

/-- Start (main.go:46-68): the returned error (`none` is nil) and the state afterwards. -/
def Start (env : Env) (s : Sys) (path : String) : Option String × Sys :=
  match env.abs path with
  | .error err => (some ("failed to get absolute path: " ++ err), s)
  | .ok absPath =>
    if IsNotExist (env.stat absPath) then
      (some ("directory does not exist: " ++ absPath), s)
    else
      let s1 := { s with watcher.addCalls := s.watcher.addCalls ++ [absPath] }
      match env.add absPath with
      | some err => (some ("failed to add directory to watcher: " ++ err), s1)
      | none =>
        (none,
          { s1 with
            watcher.watched := s1.watcher.watched ++ [absPath]
            loops := s1.loops ++ [LoopPc.select]
            stdout := s1.stdout ++ ["Started monitoring directory: " ++ absPath ++ "\n"] })

/-- logEvent (main.go:99-103), atomic under `eventMutex`. -/
def logEvent (env : Env) (s : Sys) (event : FileEvent) : Sys :=
  let r := appendSlice env.slack s.heap s.eventLog event
  { s with heap := r.2, eventLog := r.1 }

/-- GetEventLog (main.go:106-112), atomic under `eventMutex`: the returned slice and the
state afterwards. -/
def GetEventLog (s : Sys) : Slice × Sys :=
  let r := makeSlice s.heap s.eventLog.len
  (r.1, { s with heap := copySlice r.2 r.1 s.eventLog })

/-- The contents of the event log. -/
def Sys.log (s : Sys) : List FileEvent := view s.heap s.eventLog

/-- The events delivered so far on `m.events`, in delivery order. -/
def Sys.delivered (s : Sys) : List FileEvent := s.received.map Prod.snd

/-- The moves of one goroutine running `processEvents`. -/
inductive LoopAct where
  /-- Case `event, ok := <-m.watcher.Events` with `ok`; `now` is the value of `time.Now()`. -/
  | recvEvent (now : Nat)
  /-- The call `m.logEvent(fileEvent)`. -/
  | logEvent
  /-- The send `m.events <- fileEvent` meets the receive of consumer `c`. -/
  | send (c : Nat)
  /-- Case `err, ok := <-m.watcher.Errors` with `ok`. -/
  | recvError
  /-- Case `<-m.watcher.Events` with `!ok`. -/
  | eventsClosed
  /-- Case `<-m.watcher.Errors` with `!ok`. -/
  | errorsClosed
  /-- Case `<-m.done`: meets the send of the call of `Stop` at position `j`. -/
  | recvDone (j : Nat)
deriving DecidableEq, Repr

/-- One move of the goroutine at position `i`, whose program counter is `pc` (main.go:71-96). -/
def processEvents (env : Env) (s : Sys) (i : Nat) (pc : LoopPc) (a : LoopAct) : Option Sys :=
  match pc, a with
  | .select, .recvEvent now =>
    if s.watcher.eventsClosed then none
    else
      match s.watcher.Events with
      | [] => none
      | event :: rest =>
        some { s with
          watcher.Events := rest
          loops := s.loops.set i (.logging ⟨event.Name, env.opString event.Op, now⟩) }
  | .select, .eventsClosed =>
    if s.watcher.eventsClosed then some { s with loops := s.loops.set i .exited } else none
  | .select, .recvError =>
    if s.watcher.errorsClosed then none
    else
      match s.watcher.Errors with
      | [] => none
      | err :: rest =>
        some { s with
          watcher.Errors := rest
          stderr := s.stderr ++ ["Error: " ++ err ++ "\n"] }
  | .select, .errorsClosed =>
    if s.watcher.errorsClosed then some { s with loops := s.loops.set i .exited } else none
  | .select, .recvDone j =>
    if s.stops.get? j = some .sending then
      some { s with
        stops := s.stops.set j .closing
        loops := s.loops.set i .exited }
    else none
  | .logging e, .logEvent =>
    let s1 := logEvent env s e
    some { s1 with loops := s1.loops.set i (.publishing e) }
  | .publishing e, .send c =>
    some { s with
      received := s.received ++ [(c, e)]
      loops := s.loops.set i .select }
  | _, _ => none

/-- One move of the call of `Stop` at position `j`, whose program counter is `pc`
(main.go:115-118). The send on the unbuffered `m.done` is not a move of `Stop` alone: it
completes only together with a loop that receives (`LoopAct.recvDone`). -/
def Stop (s : Sys) (j : Nat) : StopPc → Option Sys
  | .sending => none
  | .closing =>
    some { s with
      watcher.released := true
      stops := s.stops.set j .returned }
  | .returned => none

/-- The moves of the whole system. -/
inductive Action where
  /-- A call of `Start`. -/
  | start (path : String)
  /-- A move of the goroutine at position `i`. -/
  | loop (i : Nat) (a : LoopAct)
  /-- A call of `GetEventLog`. -/
  | getLog
  /-- A new call of `Stop` reaches the send on `m.done` (line 116). -/
  | callStop
  /-- A move of the call of `Stop` at position `j`. -/
  | stop (j : Nat)
  /-- The notifier has a new notification. -/
  | emit (n : Notification)
  /-- The notifier has a new error. -/
  | fail (err : String)
  /-- The notifier closes `watcher.Events`. -/
  | closeEvents
  /-- The notifier closes `watcher.Errors`. -/
  | closeErrors
deriving DecidableEq, Repr

/-- One move of the system; `none` when the move is not possible in the state. -/
def step (env : Env) (s : Sys) : Action → Option Sys
  | .start path => some (Start env s path).2
  | .loop i a =>
    match s.loops.get? i with
    | none => none
    | some pc => processEvents env s i pc a
  | .getLog => some (GetEventLog s).2
  | .callStop => some { s with stops := s.stops ++ [StopPc.sending] }
  | .stop j =>
    match s.stops.get? j with
    | none => none
    | some pc => Stop s j pc
  | .emit n =>
    if s.watcher.eventsClosed then none
    else some { s with watcher.Events := s.watcher.Events ++ [n] }
  | .fail err =>
    if s.watcher.errorsClosed then none
    else some { s with watcher.Errors := s.watcher.Errors ++ [err] }
  | .closeEvents => some { s with watcher.eventsClosed := true }
  | .closeErrors => some { s with watcher.errorsClosed := true }

/-- A run: the moves of a list, one after the other. -/
def run (env : Env) (s : Sys) : List Action → Option Sys
  | [] => some s
  | a :: rest => (step env s a).bind fun t => run env t rest

/-- A sample environment: every path is absolute already, `/tmp/d` is a directory,
`/tmp/f` a regular file, nothing else exists. -/
def sampleEnv : Env where
  opString := fun o => if o = 1 then "CREATE" else if o = 4 then "REMOVE" else "WRITE"
  abs := fun p => .ok p
  stat := fun p => if p = "/tmp/d" then .info true else if p = "/tmp/f" then .info false
    else .notExist
  add := fun _ => none
  newWatcher := none
  slack := fun c => c

/-- What may happen after `GetEventLog` has returned a slice: its holder overwrites an element
of it, or the monitor logs a further event. -/
inductive Later where
  | store (i : Nat) (v : FileEvent)
  | log (e : FileEvent)
deriving DecidableEq, Repr

/-- The state after a sequence of later operations, where `c` is the slice that was returned;
`none` when a store is out of range. -/
def later (env : Env) (c : Slice) : Sys → List Later → Option Sys
  | s, [] => some s
  | s, .store i v :: rest =>
    match storeAt s.heap c i v with
    | none => none
    | some h => later env c { s with heap := h } rest
  | s, .log e :: rest => later env c (logEvent env s e) rest

/-- The events logged by a sequence of later operations. -/
def loggedOf : List Later → List FileEvent
  | [] => []
  | .store _ _ :: rest => loggedOf rest
  | .log e :: rest => e :: loggedOf rest

/-- A sequence of events after the overwrites of a sequence of later operations. -/
def storesOn (l : List FileEvent) : List Later → List FileEvent
  | [] => l
  | .store i v :: rest => storesOn (l.set i v) rest
  | .log _ :: rest => storesOn l rest

/-- The error `Start` returns for a path. It depends on the environment and the path only
(see `Start_fst`). -/
def startErr (env : Env) (path : String) : Option String := (Start env newSys path).1

/-- Whether a move is a call of `Start` that succeeds, i.e. launches a processing loop. -/
def isLaunch (env : Env) : Action → Bool
  | .start path => (startErr env path).isNone
  | _ => false

/-- The number of processing loops the moves of a list launch. -/
def launches (env : Env) (tr : List Action) : Nat := tr.countP (isLaunch env)

/-- The event a goroutine has logged and not yet handed to a consumer. -/
def pendingOf : LoopPc → List FileEvent
  | .publishing e => [e]
  | _ => []

/-- The event a goroutine has built from a notification and not yet logged. -/
def inflightOf : LoopPc → List FileEvent
  | .logging e => [e]
  | _ => []

/-- The notifications the notifier produces in a list of moves, in order. -/
def emitted : List Action → List Notification
  | [] => []
  | .emit n :: rest => n :: emitted rest
  | _ :: rest => emitted rest

/-- The number of notifications the processing loops take in a list of moves. -/
def taken : List Action → Nat
  | [] => 0
  | .loop _ (.recvEvent _) :: rest => taken rest + 1
  | _ :: rest => taken rest

/-- Path and operation of an event. -/
def FileEvent.key (e : FileEvent) : String × String := (e.Path, e.Operation)

/-- Name and string form of the operation of a notification. -/
def Notification.key (env : Env) (n : Notification) : String × String :=
  (n.Name, env.opString n.Op)

/-- The notifications of a state, oldest first, as keys: those logged, the one a loop holds
between taking it and logging it, and those the notifier still holds. -/
def Sys.seen (env : Env) (s : Sys) : List (String × String) :=
  s.log.map FileEvent.key ++ (inflightOf (s.loops.headD .select)).map FileEvent.key ++
    s.watcher.Events.map (Notification.key env)

/-- The number of notifications taken by the loop of a state. -/
def Sys.takenCount (s : Sys) : Nat :=
  s.log.length + (inflightOf (s.loops.headD .select)).length

/-- A call on the event log: `logEvent(e)` or `GetEventLog()`. -/
inductive LogCall where
  | append (e : FileEvent)
  | snapshot
deriving DecidableEq, Repr

/-- The calls of a list, one after the other (each is atomic under `eventMutex`): the final
state, and what each `GetEventLog` returned (the contents of the returned slice), in the order
of return. -/
def runCalls (env : Env) : Sys → List LogCall → Sys × List (List FileEvent)
  | s, [] => (s, [])
  | s, .append e :: rest => runCalls env (logEvent env s e) rest
  | s, .snapshot :: rest =>
    let r := GetEventLog s
    let out := runCalls env r.2 rest
    (out.1, view r.2.heap r.1 :: out.2)

/-- For each `GetEventLog` of a list of calls, the log `acc` followed by the events appended
before that call, in append order. -/
def appendedBefore (acc : List FileEvent) : List LogCall → List (List FileEvent)
  | [] => []
  | .append e :: rest => appendedBefore (acc ++ [e]) rest
  | .snapshot :: rest => acc :: appendedBefore acc rest

/-- The event `processEvents` builds from a notification taken at time `now`
(main.go:78-82). -/
def eventOf (env : Env) (p : Notification × Nat) : FileEvent :=
  ⟨p.1.Name, env.opString p.1.Op, p.2⟩

/-- The schedule in which each notification of a list is produced, taken by the loop at the
given time, logged, and handed to consumer `c`, one after the other. -/
def handleAll (c : Nat) : List (Notification × Nat) → List Action
  | [] => []
  | p :: rest =>
    [.emit p.1, .loop 0 (.recvEvent p.2), .loop 0 .logEvent, .loop 0 (.send c)] ++
      handleAll c rest

/-- The number of new calls of `Stop` in a list of moves. -/
def stopCalls : List Action → Nat
  | [] => 0
  | .callStop :: rest => stopCalls rest + 1
  | _ :: rest => stopCalls rest

/-- A state without the messages reported with `log.Printf`. -/
def Sys.quiet (s : Sys) : Sys := { s with stderr := [] }

/-! ## The entry point -/

/-- Program counter of `main` once `monitor.Start` has succeeded (main.go:138-155). -/
inductive MainPc where
  /-- Blocked in `<-ch` (line 151). -/
  | waiting
  /-- Past the receive: calls `monitor.Stop()` (line 154). -/
  | stopping
  /-- The process has been terminated. -/
  | killed
deriving DecidableEq, Repr

/-- The process around `main`: its program counter and the contents of the channel
`ch := make(chan os.Signal, 1)` (line 150; a signal is a number). -/
structure Proc where
  pc : MainPc
  ch : List Nat
deriving DecidableEq, Repr

/-- The process when `main` reaches `<-ch`: the channel was just made, so it is empty. -/
def mainWaiting : Proc := ⟨.waiting, []⟩

/-- What can happen to the process. -/
inductive ProcAct where
  /-- An interrupt signal is delivered to the process. -/
  | interrupt
  /-- The receive `<-ch` of `main` completes. -/
  | recv
deriving DecidableEq, Repr

/-- One move of the process (main.go:148-154). The channel `ch` is local to `main` and is
handed to nothing (there is no `signal.Notify(ch, ...)`; `os/signal` is not imported), so no
move puts a value into it, and an interrupt meets the default disposition of the Go runtime:
the process exits. -/
def procStep (p : Proc) : ProcAct → Option Proc
  | .interrupt =>
    match p.pc with
    | .killed => none
    | _ => some { p with pc := .killed }
  | .recv =>
    match p.pc, p.ch with
    | .waiting, _ :: rest => some { pc := .stopping, ch := rest }
    | _, _ => none

/-- A run of the process. -/
def procRun (p : Proc) : List ProcAct → Option Proc
  | [] => some p
  | a :: rest => (procStep p a).bind fun q => procRun q rest

/-- A slice header is well formed in a heap: its array exists, its capacity is the length of
the array, and its length is within the capacity. -/
def SliceOk (h : Heap) (s : Slice) : Prop :=
  s.ptr < h.length ∧ s.cap = (h.array s.ptr).length ∧ s.len ≤ s.cap

instance (h : Heap) (s : Slice) : Decidable (SliceOk h s) := by
  unfold SliceOk; infer_instance

/-! ## Sample inputs -/

/-- The sample environment seen from below the regular file `/tmp/f`: the path `/tmp/f/child`
does not exist, `os.Stat` fails on it with the not-a-directory error (for which
`os.IsNotExist` is false), and the watcher refuses it with the same error. -/
def childEnv : Env :=
  { sampleEnv with
    stat := fun p => if p = "/tmp/f/child" then .otherErr "stat /tmp/f/child: not a directory"
      else sampleEnv.stat p
    add := fun p => if p = "/tmp/f/child" then some "not a directory" else sampleEnv.add p }

/-- Two notifications: a file is created, then removed. -/
def sampleCreate : Notification := ⟨"/tmp/d/a.txt", 1⟩

/-- The second sample notification. -/
def sampleRemove : Notification := ⟨"/tmp/d/a.txt", 4⟩

/-- The events of the two sample notifications, handled at times 7 and 9. -/
def sampleE1 : FileEvent := ⟨"/tmp/d/a.txt", "CREATE", 7⟩

/-- The event of the second sample notification. -/
def sampleE2 : FileEvent := ⟨"/tmp/d/a.txt", "REMOVE", 9⟩

/-- A run: the monitor is started on `/tmp/d`, the notifier produces two notifications, and
the loop handles both, each being handed to consumer 0. -/
def sampleRun : List Action :=
  [.start "/tmp/d", .emit sampleCreate, .emit sampleRemove,
   .loop 0 (.recvEvent 7), .loop 0 .logEvent, .loop 0 (.send 0),
   .loop 0 (.recvEvent 9), .loop 0 .logEvent, .loop 0 (.send 0)]

/-- The state at the end of `sampleRun`. -/
def sampleEnd : Sys := (run sampleEnv newSys sampleRun).getD newSys

/-- A run that stops when the first event is logged and no consumer has taken it. -/
def sampleBlockedRun : List Action :=
  [.start "/tmp/d", .emit sampleCreate, .emit sampleRemove,
   .loop 0 (.recvEvent 7), .loop 0 .logEvent]

/-- The state at the end of `sampleBlockedRun`. -/
def sampleBlocked : Sys := (run sampleEnv newSys sampleBlockedRun).getD newSys

/-- A state in which the loop waits and the notifier holds an error. -/
def sampleFailed : Sys :=
  (run sampleEnv newSys [.start "/tmp/d", .emit sampleCreate, .fail "queue overflow"]).getD newSys

/-- A state in which the loop waits, the notifier still holds a notification, and the
notification feed has been closed. -/
def sampleClosed : Sys :=
  (run sampleEnv newSys [.start "/tmp/d", .emit sampleCreate, .closeEvents]).getD newSys

/-- The state after the loop of `sampleClosed` has found the feed closed and returned. -/
def sampleExited : Sys :=
  (run sampleEnv newSys
    [.start "/tmp/d", .emit sampleCreate, .closeEvents, .loop 0 .eventsClosed]).getD newSys

/-- A run in which `Stop` is called after the loop has returned. -/
def sampleStopRun : List Action :=
  [.callStop, .start "/tmp/missing", .fail "late", .closeErrors, .getLog]

/-- The state at the end of `sampleStopRun` from `sampleExited`. -/
def sampleStuck : Sys := (run sampleEnv sampleExited sampleStopRun).getD newSys

/-- Calls on the log: snapshots before, between and after two appends. -/
def sampleCalls : List LogCall :=
  [.snapshot, .append sampleE1, .snapshot, .append sampleE2, .snapshot]

/-- Later operations on a snapshot of `sampleEnd`: an overwrite, an append, an overwrite. -/
def sampleLater : List Later :=
  [.store 0 zeroEvent, .log sampleE1, .store 1 sampleE1]

/-- The state after `sampleLater`. -/
def sampleAfter : Sys :=
  (later sampleEnv (GetEventLog sampleEnd).1 (GetEventLog sampleEnd).2 sampleLater).getD newSys

/-! ## Memory lemmas -/

theorem take_set_le {α : Type} (l : List α) (n m : Nat) (a : α) (h : n ≤ m) :
    (l.set m a).take n = l.take n := by
  induction l generalizing n m with
  | nil => simp
  | cons x xs ih =>
    cases n with
    | zero => simp
    | succ n =>
      cases m with
      | zero => omega
      | succ m => simpa using ih n m (by omega)

theorem array_append_left (h k : Heap) (p : Nat) (hp : p < h.length) :
    Heap.array (h ++ k) p = Heap.array h p := by
  simp [Heap.array, List.getD_eq_getElem?_getD, List.getElem?_append_left hp]

theorem array_append_new (h : Heap) (a : List FileEvent) :
    Heap.array (h ++ [a]) h.length = a := by
  simp [Heap.array, List.getD_eq_getElem?_getD]

theorem array_set_self (h : Heap) (p : Nat) (a : List FileEvent) (hp : p < h.length) :
    Heap.array (h.set p a) p = a := by
  simp [Heap.array, List.getD_eq_getElem?_getD, hp]

theorem array_set_ne (h : Heap) (p q : Nat) (a : List FileEvent) (hpq : p ≠ q) :
    Heap.array (h.set p a) q = Heap.array h q := by
  simp [Heap.array, List.getD_eq_getElem?_getD, List.getElem?_set_ne hpq]

theorem view_length (h : Heap) (s : Slice) (hs : SliceOk h s) : (view h s).length = s.len := by
  obtain ⟨_, h2, h3⟩ := hs
  simp [view]; omega

theorem view_appendSlice (slack : Nat → Nat) (h : Heap) (s : Slice) (e : FileEvent)
    (hs : SliceOk h s) :
    view (appendSlice slack h s e).2 (appendSlice slack h s e).1 = view h s ++ [e] := by
  obtain ⟨h1, h2, h3⟩ := hs
  unfold appendSlice
  split
  · rename_i hlt
    have hlen : s.len < (Heap.array h s.ptr).length := by omega
    simp only [view, array_set_self h s.ptr _ h1]
    rw [List.take_succ, take_set_le _ _ _ _ (le_refl _)]
    simp [hlen]
  · rename_i hge
    simp only [view, array_append_new]
    have hl : ((Heap.array h s.ptr).take s.len).length = s.len := by simp; omega
    rw [List.take_append_eq_append_take]
    simp [hl]

theorem sliceOk_appendSlice (slack : Nat → Nat) (h : Heap) (s : Slice) (e : FileEvent)
    (hs : SliceOk h s) :
    SliceOk (appendSlice slack h s e).2 (appendSlice slack h s e).1 := by
  obtain ⟨h1, h2, h3⟩ := hs
  unfold appendSlice
  split
  · rename_i hlt
    refine ⟨by simpa using h1, ?_, by simp; omega⟩
    simp [array_set_self h s.ptr _ h1, h2]
  · rename_i hge
    refine ⟨by simp, ?_, by simp⟩
    have hl : ((Heap.array h s.ptr).take s.len).length = s.len := by simp; omega
    simp [array_append_new, view, hl]
    omega

/-- The heap after `append` still holds every other array unchanged. -/
theorem array_appendSlice_ne (slack : Nat → Nat) (h : Heap) (s : Slice) (e : FileEvent)
    (q : Nat) (hq : q < h.length) (hne : s.ptr ≠ q) :
    Heap.array (appendSlice slack h s e).2 q = Heap.array h q := by
  unfold appendSlice
  split
  · exact array_set_ne h s.ptr q _ hne
  · exact array_append_left h _ q hq

theorem length_appendSlice (slack : Nat → Nat) (h : Heap) (s : Slice) (e : FileEvent) :
    h.length ≤ (appendSlice slack h s e).2.length := by
  unfold appendSlice
  split <;> simp

/-- The heap after `GetEventLog`: one new array, holding the contents of the log. -/
theorem GetEventLog_heap (s : Sys) (hs : SliceOk s.heap s.eventLog) :
    (GetEventLog s).2.heap = s.heap ++ [s.log] := by
  obtain ⟨h1, h2, h3⟩ := hs
  have hl : ((Heap.array s.heap s.eventLog.ptr).take s.eventLog.len).length = s.eventLog.len := by
    simp; omega
  simp only [GetEventLog, makeSlice, copySlice, Sys.log, view, array_append_new,
    array_append_left s.heap _ _ h1, Nat.min_self]
  rw [List.take_of_length_le (by omega)]
  simp

theorem GetEventLog_slice (s : Sys) :
    (GetEventLog s).1 = ⟨s.heap.length, s.eventLog.len, s.eventLog.len⟩ := rfl

theorem sliceOk_of_array_eq (h k : Heap) (c : Slice) (hc : SliceOk h c)
    (hlen : c.ptr < k.length) (harr : Heap.array k c.ptr = Heap.array h c.ptr) :
    SliceOk k c := by
  obtain ⟨_, h2, h3⟩ := hc
  exact ⟨hlen, by rw [harr]; exact h2, h3⟩

theorem view_of_array_eq (h k : Heap) (c : Slice)
    (harr : Heap.array k c.ptr = Heap.array h c.ptr) : view k c = view h c := by
  simp [view, harr]

theorem storeAt_eq (h k : Heap) (c : Slice) (i : Nat) (v : FileEvent)
    (hst : storeAt h c i v = some k) :
    i < c.len ∧ k = h.set c.ptr ((Heap.array h c.ptr).set i v) := by
  unfold storeAt at hst
  split at hst
  · rename_i hi
    exact ⟨hi, by simpa using hst.symm⟩
  · simp at hst

theorem view_storeAt (h k : Heap) (c : Slice) (i : Nat) (v : FileEvent) (hc : SliceOk h c)
    (hst : storeAt h c i v = some k) : view k c = (view h c).set i v := by
  obtain ⟨hi, rfl⟩ := storeAt_eq h k c i v hst
  simp only [view, array_set_self h c.ptr _ hc.1]
  exact List.set_take

/-- The log and the state of the monitor after `logEvent`. -/
theorem log_logEvent (env : Env) (s : Sys) (e : FileEvent) (hs : SliceOk s.heap s.eventLog) :
    (logEvent env s e).log = s.log ++ [e] :=
  view_appendSlice env.slack s.heap s.eventLog e hs

theorem ok_logEvent (env : Env) (s : Sys) (e : FileEvent) (hs : SliceOk s.heap s.eventLog) :
    SliceOk (logEvent env s e).heap (logEvent env s e).eventLog :=
  sliceOk_appendSlice env.slack s.heap s.eventLog e hs

theorem log_GetEventLog (s : Sys) (hs : SliceOk s.heap s.eventLog) :
    (GetEventLog s).2.log = s.log := by
  have hh := GetEventLog_heap s hs
  have he : (GetEventLog s).2.eventLog = s.eventLog := rfl
  simp only [Sys.log, he, hh]
  exact view_of_array_eq _ _ _ (array_append_left _ _ _ hs.1)

theorem ok_GetEventLog (s : Sys) (hs : SliceOk s.heap s.eventLog) :
    SliceOk (GetEventLog s).2.heap (GetEventLog s).2.eventLog := by
  have hh := GetEventLog_heap s hs
  have he : (GetEventLog s).2.eventLog = s.eventLog := rfl
  rw [he, hh]
  exact sliceOk_of_array_eq _ _ _ hs (by simp; have := hs.1; omega)
    (array_append_left _ _ _ hs.1)

theorem view_GetEventLog (s : Sys) (hs : SliceOk s.heap s.eventLog) :
    view (GetEventLog s).2.heap (GetEventLog s).1 = s.log := by
  rw [GetEventLog_heap s hs, GetEventLog_slice]
  simp only [view, array_append_new]
  rw [List.take_of_length_le]
  simp [Sys.log, view]

theorem ptr_appendSlice (slack : Nat → Nat) (h : Heap) (s : Slice) (e : FileEvent) :
    (appendSlice slack h s e).1.ptr = s.ptr ∨ (appendSlice slack h s e).1.ptr = h.length := by
  unfold appendSlice
  split <;> simp

/-- Later stores through a slice and later appends to the log do not meet, as long as the slice
and the log live in different arrays. -/
theorem later_frame (env : Env) (c : Slice) (ops : List Later) :
    ∀ t u : Sys, SliceOk t.heap t.eventLog → SliceOk t.heap c → c.ptr ≠ t.eventLog.ptr →
      later env c t ops = some u →
      u.log = t.log ++ loggedOf ops ∧ view u.heap c = storesOn (view t.heap c) ops := by
  induction ops with
  | nil =>
    intro t u _ _ _ hrun
    simp only [later, Option.some.injEq] at hrun
    subst hrun
    simp [loggedOf, storesOn]
  | cons op rest ih =>
    intro t u hlog hc hne hrun
    cases op with
    | store i v =>
      simp only [later] at hrun
      cases hst : storeAt t.heap c i v with
      | none => simp [hst] at hrun
      | some k =>
        simp only [hst] at hrun
        obtain ⟨hi, hk⟩ := storeAt_eq _ _ _ _ _ hst
        have hklen : k.length = t.heap.length := by rw [hk]; simp
        have harr : Heap.array k t.eventLog.ptr = Heap.array t.heap t.eventLog.ptr := by
          rw [hk]; exact array_set_ne _ _ _ _ hne
        have hcarr : Heap.array k c.ptr = (Heap.array t.heap c.ptr).set i v := by
          rw [hk]; exact array_set_self _ _ _ hc.1
        have hlog1 : SliceOk k t.eventLog :=
          sliceOk_of_array_eq _ _ _ hlog (by rw [hklen]; exact hlog.1) harr
        have hc1 : SliceOk k c :=
          ⟨by rw [hklen]; exact hc.1, by rw [hcarr]; simpa using hc.2.1, hc.2.2⟩
        obtain ⟨h1, h2⟩ := ih { t with heap := k } u hlog1 hc1 hne hrun
        refine ⟨?_, ?_⟩
        · rw [h1]
          simp only [Sys.log, loggedOf]
          rw [view_of_array_eq _ _ _ harr]
        · rw [h2]
          simp only [storesOn]
          rw [view_storeAt _ _ _ _ _ hc hst]
    | log e =>
      simp only [later] at hrun
      have hlen := length_appendSlice env.slack t.heap t.eventLog e
      have harr := array_appendSlice_ne env.slack t.heap t.eventLog e c.ptr hc.1 (Ne.symm hne)
      have hc1 : SliceOk (logEvent env t e).heap c :=
        sliceOk_of_array_eq _ _ _ hc (lt_of_lt_of_le hc.1 hlen) harr
      have hne1 : c.ptr ≠ (logEvent env t e).eventLog.ptr := by
        rcases ptr_appendSlice env.slack t.heap t.eventLog e with hp | hp
        · simp only [logEvent]; rw [hp]; exact hne
        · simp only [logEvent]; rw [hp]; exact Nat.ne_of_lt hc.1
      obtain ⟨h1, h2⟩ := ih (logEvent env t e) u (ok_logEvent env t e hlog) hc1 hne1 hrun
      refine ⟨?_, ?_⟩
      · rw [h1, log_logEvent env t e hlog]
        simp [loggedOf]
      · rw [h2]
        simp only [storesOn]
        have hv : view (logEvent env t e).heap c = view t.heap c :=
          view_of_array_eq _ _ _ harr
        rw [hv]

/-- C3. `GetEventLog` returns an independent copy: the returned slice holds exactly the
current log; the monitor is unchanged (the only change of the state is one new array in
memory, which holds the copy); and after any sequence of later overwrites through the returned
slice and later `logEvent` calls, the log is the old log followed by the events logged since
(no overwrite shows in it), and the returned slice holds the old log with the overwrites
applied (no append shows in it). -/
theorem GetEventLog_independent_copy (env : Env) (s : Sys)
    (hs : SliceOk s.heap s.eventLog) :
    view (GetEventLog s).2.heap (GetEventLog s).1 = s.log ∧
    (GetEventLog s).2 = { s with heap := s.heap ++ [s.log] } ∧
    (GetEventLog s).2.log = s.log ∧
    ∀ (ops : List Later) (t : Sys),
      later env (GetEventLog s).1 (GetEventLog s).2 ops = some t →
      t.log = s.log ++ loggedOf ops ∧ view t.heap (GetEventLog s).1 = storesOn s.log ops := by
  have hcopy := view_GetEventLog s hs
  have hheap := GetEventLog_heap s hs
  refine ⟨hcopy, ?_, log_GetEventLog s hs, ?_⟩
  · have : (GetEventLog s).2 = { s with heap := (GetEventLog s).2.heap } := rfl
    rw [this, hheap]
  · intro ops t hrun
    have hc : SliceOk (GetEventLog s).2.heap (GetEventLog s).1 := by
      rw [hheap, GetEventLog_slice]
      refine ⟨by simp, ?_, le_refl _⟩
      simp only [array_append_new]
      exact (view_length _ _ hs).symm
    have hne : (GetEventLog s).1.ptr ≠ (GetEventLog s).2.eventLog.ptr := by
      rw [GetEventLog_slice]
      exact Nat.ne_of_gt hs.1
    have h := later_frame env _ ops _ t (ok_GetEventLog s hs) hc hne hrun
    rw [log_GetEventLog s hs, hcopy] at h
    exact h

/-! ## The moves of the processing loop, case by case -/

theorem processEvents_cases (env : Env) (s t : Sys) (i : Nat) (pc : LoopPc) (a : LoopAct)
    (h : processEvents env s i pc a = some t) :
    (∃ now n rest, pc = .select ∧ a = .recvEvent now ∧ s.watcher.eventsClosed = false ∧
        s.watcher.Events = n :: rest ∧
        t = { s with
          watcher.Events := rest
          loops := s.loops.set i (.logging ⟨n.Name, env.opString n.Op, now⟩) }) ∨
    (pc = .select ∧ a = .eventsClosed ∧ s.watcher.eventsClosed = true ∧
        t = { s with loops := s.loops.set i .exited }) ∨
    (∃ err rest, pc = .select ∧ a = .recvError ∧ s.watcher.errorsClosed = false ∧
        s.watcher.Errors = err :: rest ∧
        t = { s with
          watcher.Errors := rest
          stderr := s.stderr ++ ["Error: " ++ err ++ "\n"] }) ∨
    (pc = .select ∧ a = .errorsClosed ∧ s.watcher.errorsClosed = true ∧
        t = { s with loops := s.loops.set i .exited }) ∨
    (∃ j, pc = .select ∧ a = .recvDone j ∧ s.stops.get? j = some .sending ∧
        t = { s with
          stops := s.stops.set j .closing
          loops := s.loops.set i .exited }) ∨
    (∃ e, pc = .logging e ∧ a = .logEvent ∧
        t = { logEvent env s e with loops := (logEvent env s e).loops.set i (.publishing e) }) ∨
    (∃ e c, pc = .publishing e ∧ a = .send c ∧
        t = { s with
          received := s.received ++ [(c, e)]
          loops := s.loops.set i .select }) := by
  cases pc <;> cases a <;> simp only [processEvents] at h <;> try contradiction
  · -- select, recvEvent
    rename_i now
    split at h
    · cases h
    · rename_i hc
      split at h
      · cases h
      · rename_i n rest hev
        exact Or.inl ⟨now, n, rest, rfl, rfl, by simpa using hc, hev, (Option.some.inj h).symm⟩
  · -- select, recvError
    split at h
    · cases h
    · rename_i hc
      split at h
      · cases h
      · rename_i err rest hev
        exact Or.inr (Or.inr (Or.inl
          ⟨err, rest, rfl, rfl, by simpa using hc, hev, (Option.some.inj h).symm⟩))
  · -- select, eventsClosed
    cases hc : s.watcher.eventsClosed with
    | false => simp [hc] at h
    | true =>
      simp only [hc, if_true, Option.some.injEq] at h
      exact Or.inr (Or.inl ⟨rfl, rfl, rfl, h.symm⟩)
  · -- select, errorsClosed
    cases hc : s.watcher.errorsClosed with
    | false => simp [hc] at h
    | true =>
      simp only [hc, if_true, Option.some.injEq] at h
      exact Or.inr (Or.inr (Or.inr (Or.inl ⟨rfl, rfl, rfl, h.symm⟩)))
  · -- select, recvDone
    rename_i j
    split at h
    · rename_i hb
      exact Or.inr (Or.inr (Or.inr (Or.inr (Or.inl
        ⟨j, rfl, rfl, hb, (Option.some.inj h).symm⟩))))
    · cases h
  · -- logging, logEvent
    rename_i e
    simp only [Option.some.injEq] at h
    exact Or.inr (Or.inr (Or.inr (Or.inr (Or.inr (Or.inl ⟨e, rfl, rfl, h.symm⟩)))))
  · -- publishing, send
    rename_i e c
    simp only [Option.some.injEq] at h
    exact Or.inr (Or.inr (Or.inr (Or.inr (Or.inr (Or.inr ⟨e, c, rfl, rfl, h.symm⟩)))))

/-! ## Start -/

theorem Start_fst (env : Env) (s : Sys) (path : String) :
    (Start env s path).1 = startErr env path := by
  unfold startErr Start
  cases env.abs path with
  | error err => rfl
  | ok absPath =>
    dsimp only
    cases IsNotExist (env.stat absPath) with
    | true => rfl
    | false =>
      simp only [Bool.false_eq_true, if_false]
      cases env.add absPath <;> rfl

/-- The state after `Start`: only the record of the watcher's registrations, the output and the
list of processing loops can differ, and a loop is added exactly when `Start` succeeds. -/
theorem Start_snd (env : Env) (s : Sys) (path : String) :
    ∃ calls watched out, (Start env s path).2 =
      { s with
        watcher := { s.watcher with addCalls := calls, watched := watched }
        stdout := out
        loops := if (startErr env path).isNone then s.loops ++ [LoopPc.select] else s.loops } := by
  unfold startErr Start
  cases env.abs path with
  | error err => exact ⟨s.watcher.addCalls, s.watcher.watched, s.stdout, rfl⟩
  | ok absPath =>
    dsimp only
    cases IsNotExist (env.stat absPath) with
    | true => exact ⟨s.watcher.addCalls, s.watcher.watched, s.stdout, rfl⟩
    | false =>
      simp only [Bool.false_eq_true, if_false]
      cases env.add absPath with
      | some err => exact ⟨s.watcher.addCalls ++ [absPath], s.watcher.watched, s.stdout, rfl⟩
      | none => exact ⟨_, _, _, rfl⟩

/-! ## Invariants of every move -/

theorem single_loop (l : List LoopPc) (i : Nat) (pc : LoopPc) (hl : l.length ≤ 1)
    (hi : l.get? i = some pc) : l = [pc] ∧ i = 0 := by
  match l, i with
  | [], _ => simp at hi
  | [x], 0 => simp at hi; simp [hi]
  | [x], n + 1 => simp at hi
  | _ :: _ :: _, _ => simp at hl

theorem step_stop (env : Env) (s t : Sys) (j : Nat) (h : step env s (.stop j) = some t) :
    s.stops.get? j = some .closing ∧
      t = { s with
        watcher.released := true
        stops := s.stops.set j .returned } := by
  have h1 : (match s.stops.get? j with
      | none => none
      | some pc => Stop s j pc) = some t := h
  cases hpc : s.stops.get? j with
  | none => rw [hpc] at h1; cases h1
  | some pc =>
    rw [hpc] at h1
    cases pc with
    | closing => exact ⟨rfl, (Option.some.inj h1).symm⟩
    | sending => cases h1
    | returned => cases h1

theorem step_loop (env : Env) (s t : Sys) (i : Nat) (la : LoopAct)
    (h : step env s (.loop i la) = some t) :
    ∃ pc, s.loops.get? i = some pc ∧ processEvents env s i pc la = some t := by
  simp only [step] at h
  cases hpc : s.loops[i]? with
  | none => simp [hpc] at h
  | some pc => exact ⟨pc, by simpa using hpc, by simpa [hpc] using h⟩

/-- Every move keeps the log slice well formed. -/
theorem step_ok (env : Env) (s t : Sys) (a : Action) (hok : SliceOk s.heap s.eventLog)
    (h : step env s a = some t) : SliceOk t.heap t.eventLog := by
  cases a with
  | start path =>
    simp only [step, Option.some.injEq] at h
    obtain ⟨c, w, o, hS⟩ := Start_snd env s path
    rw [← h, hS]; exact hok
  | loop i la =>
    obtain ⟨pc, hpc, h⟩ := step_loop env s t i la h
    · rcases processEvents_cases env s t i pc la h with
        ⟨_, _, _, _, _, _, _, rfl⟩ | ⟨_, _, _, rfl⟩ | ⟨_, _, _, _, _, _, rfl⟩ | ⟨_, _, _, rfl⟩ |
        ⟨_, _, _, _, rfl⟩ | ⟨e, _, _, rfl⟩ | ⟨_, _, _, _, rfl⟩
      all_goals first | exact hok | exact ok_logEvent env s _ hok
  | getLog =>
    simp only [step, Option.some.injEq] at h
    rw [← h]; exact ok_GetEventLog s hok
  | callStop => simp only [step, Option.some.injEq] at h; rw [← h]; exact hok
  | stop j =>
    obtain ⟨_, rfl⟩ := step_stop env s t j h
    exact hok
  | emit n =>
    simp only [step] at h
    split at h
    · cases h
    · simp only [Option.some.injEq] at h; rw [← h]; exact hok
  | fail err =>
    simp only [step] at h
    split at h
    · cases h
    · simp only [Option.some.injEq] at h; rw [← h]; exact hok
  | closeEvents => simp only [step, Option.some.injEq] at h; rw [← h]; exact hok
  | closeErrors => simp only [step, Option.some.injEq] at h; rw [← h]; exact hok

/-- Only a successful `Start` changes the number of processing loops. -/
theorem step_loops_length (env : Env) (s t : Sys) (a : Action) (h : step env s a = some t) :
    t.loops.length = s.loops.length + launches env [a] := by
  cases a with
  | start path =>
    simp only [step, Option.some.injEq] at h
    obtain ⟨c, w, o, hS⟩ := Start_snd env s path
    rw [← h, hS]
    cases hE : (startErr env path).isNone <;> simp [launches, isLaunch, hE]
  | loop i la =>
    obtain ⟨pc, hpc, h⟩ := step_loop env s t i la h
    · rcases processEvents_cases env s t i pc la h with
        ⟨_, _, _, _, _, _, _, rfl⟩ | ⟨_, _, _, rfl⟩ | ⟨_, _, _, _, _, _, rfl⟩ | ⟨_, _, _, rfl⟩ |
        ⟨_, _, _, _, rfl⟩ | ⟨e, _, _, rfl⟩ | ⟨_, _, _, _, rfl⟩
      all_goals simp [launches, isLaunch, logEvent]
  | getLog =>
    simp only [step, Option.some.injEq] at h
    rw [← h]; simp [launches, isLaunch, GetEventLog]
  | callStop => simp only [step, Option.some.injEq] at h; rw [← h]; simp [launches, isLaunch]
  | stop j =>
    obtain ⟨_, rfl⟩ := step_stop env s t j h
    simp [launches, isLaunch]
  | emit n =>
    simp only [step] at h
    split at h
    · cases h
    · simp only [Option.some.injEq] at h; rw [← h]; simp [launches, isLaunch]
  | fail err =>
    simp only [step] at h
    split at h
    · cases h
    · simp only [Option.some.injEq] at h; rw [← h]; simp [launches, isLaunch]
  | closeEvents => simp only [step, Option.some.injEq] at h; rw [← h]; simp [launches, isLaunch]
  | closeErrors => simp only [step, Option.some.injEq] at h; rw [← h]; simp [launches, isLaunch]

theorem launches_cons (env : Env) (a : Action) (tr : List Action) :
    launches env (a :: tr) = launches env [a] + launches env tr := by
  simp only [launches, List.countP_cons, List.countP_nil]
  omega

theorem run_cons (env : Env) (s t : Sys) (a : Action) (tr : List Action)
    (h : run env s (a :: tr) = some t) :
    ∃ u, step env s a = some u ∧ run env u tr = some t := by
  simp only [run] at h
  cases hu : step env s a with
  | none => simp [hu] at h
  | some u => exact ⟨u, rfl, by simpa [hu] using h⟩

/-- With at most one processing loop, every move keeps the log equal to what has been
delivered followed by the event the loop is blocked publishing, if any. -/
theorem step_backpressure (env : Env) (s t : Sys) (a : Action)
    (hok : SliceOk s.heap s.eventLog) (hone : s.loops.length + launches env [a] ≤ 1)
    (hinv : s.log = s.delivered ++ pendingOf (s.loops.headD .select))
    (h : step env s a = some t) :
    t.log = t.delivered ++ pendingOf (t.loops.headD .select) := by
  cases a with
  | start path =>
    simp only [step, Option.some.injEq] at h
    obtain ⟨c, w, o, hS⟩ := Start_snd env s path
    rw [← h, hS]
    cases hE : (startErr env path).isNone with
    | false => simpa [Sys.log, Sys.delivered] using hinv
    | true =>
      have hl : s.loops = [] := by
        simp [launches, isLaunch, hE] at hone
        exact hone
      simpa [Sys.log, Sys.delivered, hl] using hinv
  | loop i la =>
    have hlen : s.loops.length ≤ 1 := by omega
    obtain ⟨pc, hpc, h⟩ := step_loop env s t i la h
    obtain ⟨hl, rfl⟩ := single_loop s.loops i pc hlen hpc
    rcases processEvents_cases env s t 0 pc la h with
      ⟨_, _, _, rfl, _, _, _, rfl⟩ | ⟨rfl, _, _, rfl⟩ | ⟨_, _, rfl, _, _, _, rfl⟩ |
      ⟨rfl, _, _, rfl⟩ | ⟨_, rfl, _, _, rfl⟩ | ⟨e, rfl, _, rfl⟩ | ⟨e, c, rfl, _, rfl⟩
    · simpa [Sys.log, Sys.delivered, hl, pendingOf] using hinv
    · simpa [Sys.log, Sys.delivered, hl, pendingOf] using hinv
    · simpa [Sys.log, Sys.delivered, hl, pendingOf] using hinv
    · simpa [Sys.log, Sys.delivered, hl, pendingOf] using hinv
    · simpa [Sys.log, Sys.delivered, hl, pendingOf] using hinv
    · have hlog := log_logEvent env s e hok
      have hl2 : (logEvent env s e).loops = [LoopPc.logging e] := hl
      have hr : (logEvent env s e).received = s.received := rfl
      simp only [hl, List.headD_cons, pendingOf, List.append_nil] at hinv
      show (logEvent env s e).log = _
      rw [hlog, hinv]
      simp [Sys.delivered, hl2, hr, pendingOf]
    · simp only [hl, List.headD_cons, pendingOf] at hinv
      show s.log = _
      rw [hinv]
      simp [Sys.delivered, hl, pendingOf]
  | getLog =>
    simp only [step, Option.some.injEq] at h
    rw [← h, log_GetEventLog s hok]
    exact hinv
  | callStop => simp only [step, Option.some.injEq] at h; rw [← h]; exact hinv
  | stop j =>
    obtain ⟨_, rfl⟩ := step_stop env s t j h
    exact hinv
  | emit n =>
    simp only [step] at h
    split at h
    · cases h
    · simp only [Option.some.injEq] at h; rw [← h]; exact hinv
  | fail err =>
    simp only [step] at h
    split at h
    · cases h
    · simp only [Option.some.injEq] at h; rw [← h]; exact hinv
  | closeEvents => simp only [step, Option.some.injEq] at h; rw [← h]; exact hinv
  | closeErrors => simp only [step, Option.some.injEq] at h; rw [← h]; exact hinv

/-- The invariant of `step_backpressure` along a run that launches at most one loop. -/
theorem run_backpressure (env : Env) (tr : List Action) :
    ∀ s t : Sys, SliceOk s.heap s.eventLog → s.loops.length + launches env tr ≤ 1 →
      s.log = s.delivered ++ pendingOf (s.loops.headD .select) →
      run env s tr = some t →
      SliceOk t.heap t.eventLog ∧ t.loops.length ≤ 1 ∧
        t.log = t.delivered ++ pendingOf (t.loops.headD .select) := by
  induction tr with
  | nil =>
    intro s t hok hone hinv h
    simp only [run, Option.some.injEq] at h
    subst h
    exact ⟨hok, by simpa [launches] using hone, hinv⟩
  | cons a rest ih =>
    intro s t hok hone hinv h
    obtain ⟨u, hu, hrest⟩ := run_cons env s t a rest h
    rw [launches_cons] at hone
    have hlen := step_loops_length env s u a hu
    exact ih u t (step_ok env s u a hok hu) (by omega)
      (step_backpressure env s u a hok (by omega) hinv hu) hrest

theorem NewMonitor_ok (env : Env) (s : Sys) (h : NewMonitor env = .ok s) : s = newSys := by
  unfold NewMonitor at h
  cases hw : env.newWatcher with
  | some err => simp [hw] at h
  | none =>
    simp only [hw] at h
    exact (Except.ok.inj h).symm

/-- A move other than a hand-over to a consumer leaves the record of deliveries unchanged. -/
theorem step_received (env : Env) (s t : Sys) (a : Action) (h : step env s a = some t)
    (hns : ∀ i c, a ≠ .loop i (.send c)) : t.received = s.received := by
  cases a with
  | start path =>
    simp only [step, Option.some.injEq] at h
    obtain ⟨c, w, o, hS⟩ := Start_snd env s path
    rw [← h, hS]
  | loop i la =>
    obtain ⟨pc, hpc, h⟩ := step_loop env s t i la h
    rcases processEvents_cases env s t i pc la h with
      ⟨_, _, _, _, _, _, _, rfl⟩ | ⟨_, _, _, rfl⟩ | ⟨_, _, _, _, _, _, rfl⟩ | ⟨_, _, _, rfl⟩ |
      ⟨_, _, _, _, rfl⟩ | ⟨e, _, _, rfl⟩ | ⟨e, c, _, rfl, rfl⟩
    · rfl
    · rfl
    · rfl
    · rfl
    · rfl
    · rfl
    · exact absurd rfl (hns i c)
  | getLog => simp only [step, Option.some.injEq] at h; rw [← h]; rfl
  | callStop => simp only [step, Option.some.injEq] at h; rw [← h]
  | stop j =>
    obtain ⟨_, rfl⟩ := step_stop env s t j h
    rfl
  | emit n =>
    simp only [step] at h
    split at h
    · cases h
    · simp only [Option.some.injEq] at h; rw [← h]
  | fail err =>
    simp only [step] at h
    split at h
    · cases h
    · simp only [Option.some.injEq] at h; rw [← h]
  | closeEvents => simp only [step, Option.some.injEq] at h; rw [← h]
  | closeErrors => simp only [step, Option.some.injEq] at h; rw [← h]

theorem run_received (env : Env) (tr : List Action) :
    ∀ s t : Sys, run env s tr = some t → (∀ i c, Action.loop i (.send c) ∉ tr) →
      t.received = s.received := by
  induction tr with
  | nil =>
    intro s t h _
    simp only [run, Option.some.injEq] at h
    rw [h]
  | cons a rest ih =>
    intro s t h hns
    obtain ⟨u, hu, hrest⟩ := run_cons env s t a rest h
    have h1 := step_received env s u a hu (fun i c hEq => hns i c (by simp [hEq]))
    have h2 := ih u t hrest (fun i c hmem => hns i c (List.mem_cons_of_mem _ hmem))
    rw [h2, h1]

/-- C6. Backpressure: in every state a monitor reaches from `NewMonitor` by a run in which at
most one `Start` succeeds, the events delivered on the outbound stream are the whole log or the
log without its last element, so the log holds at most one undelivered event; in a run without
any hand-over to a consumer at most one event is logged; and while an event is undelivered the
loop cannot take a further notification. -/
theorem backpressure (env : Env) (s0 s : Sys) (tr : List Action)
    (h0 : NewMonitor env = .ok s0) (hone : launches env tr ≤ 1)
    (hrun : run env s0 tr = some s) :
    (s.delivered = s.log ∨ s.delivered = s.log.dropLast) ∧
    s.log.length ≤ s.delivered.length + 1 ∧
    ((∀ i c, Action.loop i (.send c) ∉ tr) → s.log.length ≤ 1) ∧
    (s.delivered ≠ s.log → ∀ i now, step env s (.loop i (.recvEvent now)) = none) := by
  have hs0 := NewMonitor_ok env s0 h0
  subst hs0
  obtain ⟨_, hlen, hinv⟩ := run_backpressure env tr newSys s (by decide)
    (by simpa [newSys] using hone) (by decide) hrun
  cases hpc : s.loops.headD .select with
  | publishing e =>
    rw [hpc] at hinv
    simp only [pendingOf] at hinv
    refine ⟨Or.inr (by rw [hinv]; simp), by rw [hinv]; simp, ?_, ?_⟩
    · intro hns
      have hr := run_received env tr newSys s hrun hns
      have hd : s.delivered = [] := by simp [Sys.delivered, hr, newSys]
      rw [hinv, hd]; simp
    · intro _ i now
      have hl : s.loops = [LoopPc.publishing e] := by
        match hloops : s.loops with
        | [] => rw [hloops] at hpc; simp at hpc
        | [x] => rw [hloops] at hpc; simp at hpc; rw [hpc]
        | _ :: _ :: _ => rw [hloops] at hlen; simp at hlen
      cases i with
      | zero => simp [step, hl, processEvents]
      | succ n => simp [step, hl]
  | select =>
    rw [hpc] at hinv
    simp only [pendingOf, List.append_nil] at hinv
    exact ⟨Or.inl hinv.symm, by rw [hinv]; omega,
      fun hns => by
        have hr := run_received env tr newSys s hrun hns
        have hd : s.delivered = [] := by simp [Sys.delivered, hr, newSys]
        rw [hinv, hd]; simp,
      fun hne => absurd hinv.symm hne⟩
  | logging e =>
    rw [hpc] at hinv
    simp only [pendingOf, List.append_nil] at hinv
    exact ⟨Or.inl hinv.symm, by rw [hinv]; omega,
      fun hns => by
        have hr := run_received env tr newSys s hrun hns
        have hd : s.delivered = [] := by simp [Sys.delivered, hr, newSys]
        rw [hinv, hd]; simp,
      fun hne => absurd hinv.symm hne⟩
  | exited =>
    rw [hpc] at hinv
    simp only [pendingOf, List.append_nil] at hinv
    exact ⟨Or.inl hinv.symm, by rw [hinv]; omega,
      fun hns => by
        have hr := run_received env tr newSys s hrun hns
        have hd : s.delivered = [] := by simp [Sys.delivered, hr, newSys]
        rw [hinv, hd]; simp,
      fun hne => absurd hinv.symm hne⟩

/-! ## Order of the log -/

/-- With at most one processing loop, a move extends the sequence of notifications of the
state by what the notifier produced, and counts the notification the loop took. -/
theorem step_seen (env : Env) (s t : Sys) (a : Action)
    (hok : SliceOk s.heap s.eventLog) (hone : s.loops.length + launches env [a] ≤ 1)
    (h : step env s a = some t) :
    t.seen env = s.seen env ++ (emitted [a]).map (Notification.key env) ∧
    t.takenCount = s.takenCount + taken [a] := by
  cases a with
  | start path =>
    simp only [step, Option.some.injEq] at h
    obtain ⟨c, w, o, hS⟩ := Start_snd env s path
    rw [← h, hS]
    cases hE : (startErr env path).isNone with
    | false => simp [Sys.seen, Sys.takenCount, Sys.log, emitted, taken]
    | true =>
      have hl : s.loops = [] := by
        simp [launches, isLaunch, hE] at hone
        exact hone
      simp [Sys.seen, Sys.takenCount, Sys.log, emitted, taken, hl, inflightOf]
  | loop i la =>
    have hlen : s.loops.length ≤ 1 := by omega
    obtain ⟨pc, hpc, h⟩ := step_loop env s t i la h
    obtain ⟨hl, rfl⟩ := single_loop s.loops i pc hlen hpc
    rcases processEvents_cases env s t 0 pc la h with
      ⟨now, n, rest, rfl, rfl, _, hev, rfl⟩ | ⟨rfl, rfl, _, rfl⟩ |
      ⟨_, _, rfl, rfl, _, _, rfl⟩ | ⟨rfl, rfl, _, rfl⟩ | ⟨_, rfl, rfl, _, rfl⟩ |
      ⟨e, rfl, rfl, rfl⟩ | ⟨e, c, rfl, rfl, rfl⟩
    · simp [Sys.seen, Sys.takenCount, Sys.log, emitted, taken, hl, hev, inflightOf,
        FileEvent.key, Notification.key]
    · simp [Sys.seen, Sys.takenCount, Sys.log, emitted, taken, hl, inflightOf]
    · simp [Sys.seen, Sys.takenCount, Sys.log, emitted, taken, hl, inflightOf]
    · simp [Sys.seen, Sys.takenCount, Sys.log, emitted, taken, hl, inflightOf]
    · simp [Sys.seen, Sys.takenCount, Sys.log, emitted, taken, hl, inflightOf]
    · have hlog := log_logEvent env s e hok
      have hl2 : (logEvent env s e).loops = [LoopPc.logging e] := hl
      have hw : (logEvent env s e).watcher = s.watcher := rfl
      have hlog2 : Sys.log { logEvent env s e with
          loops := (logEvent env s e).loops.set 0 (.publishing e) } = s.log ++ [e] := hlog
      simp only [Sys.seen, Sys.takenCount, hlog2]
      simp [hl, hl2, hw, inflightOf, emitted, taken]
    · simp [Sys.seen, Sys.takenCount, Sys.log, emitted, taken, hl, inflightOf]
  | getLog =>
    simp only [step, Option.some.injEq] at h
    have hlog := log_GetEventLog s hok
    rw [← h]
    simp only [Sys.seen, Sys.takenCount, hlog]
    simp [GetEventLog, emitted, taken]
  | callStop =>
    simp only [step, Option.some.injEq] at h; rw [← h]
    simp [Sys.seen, Sys.takenCount, Sys.log, emitted, taken]
  | stop j =>
    obtain ⟨_, rfl⟩ := step_stop env s t j h
    simp [Sys.seen, Sys.takenCount, Sys.log, emitted, taken]
  | emit n =>
    simp only [step] at h
    split at h
    · cases h
    · simp only [Option.some.injEq] at h; rw [← h]
      simp [Sys.seen, Sys.takenCount, Sys.log, emitted, taken]
  | fail err =>
    simp only [step] at h
    split at h
    · cases h
    · simp only [Option.some.injEq] at h; rw [← h]
      simp [Sys.seen, Sys.takenCount, Sys.log, emitted, taken]
  | closeEvents =>
    simp only [step, Option.some.injEq] at h; rw [← h]
    simp [Sys.seen, Sys.takenCount, Sys.log, emitted, taken]
  | closeErrors =>
    simp only [step, Option.some.injEq] at h; rw [← h]
    simp [Sys.seen, Sys.takenCount, Sys.log, emitted, taken]

theorem emitted_cons (a : Action) (tr : List Action) :
    emitted (a :: tr) = emitted [a] ++ emitted tr := by
  cases a <;> simp [emitted]

theorem taken_cons (a : Action) (tr : List Action) :
    taken (a :: tr) = taken [a] + taken tr := by
  cases a with
  | loop i la => cases la <;> simp [taken]; omega
  | _ => simp [taken]

theorem run_seen (env : Env) (tr : List Action) :
    ∀ s t : Sys, SliceOk s.heap s.eventLog → s.loops.length + launches env tr ≤ 1 →
      run env s tr = some t →
      t.seen env = s.seen env ++ (emitted tr).map (Notification.key env) ∧
      t.takenCount = s.takenCount + taken tr := by
  induction tr with
  | nil =>
    intro s t _ _ h
    simp only [run, Option.some.injEq] at h
    subst h
    simp [emitted, taken]
  | cons a rest ih =>
    intro s t hok hone h
    obtain ⟨u, hu, hrest⟩ := run_cons env s t a rest h
    rw [launches_cons] at hone
    have hlen := step_loops_length env s u a hu
    obtain ⟨h1, h2⟩ := step_seen env s u a hok (by omega) hu
    obtain ⟨h3, h4⟩ := ih u t (step_ok env s u a hok hu) (by omega) hrest
    rw [h3, h4, h1, h2, emitted_cons a rest, taken_cons a rest]
    simp only [List.map_append, List.append_assoc, true_and]
    omega

theorem run_ok (env : Env) (tr : List Action) :
    ∀ s t : Sys, SliceOk s.heap s.eventLog → run env s tr = some t →
      SliceOk t.heap t.eventLog := by
  induction tr with
  | nil =>
    intro s t hok h
    simp only [run, Option.some.injEq] at h
    subst h
    exact hok
  | cons a rest ih =>
    intro s t hok h
    obtain ⟨u, hu, hrest⟩ := run_cons env s t a rest h
    exact ih u t (step_ok env s u a hok hu) hrest

theorem run_loops_length (env : Env) (tr : List Action) :
    ∀ s t : Sys, run env s tr = some t →
      t.loops.length = s.loops.length + launches env tr := by
  induction tr with
  | nil =>
    intro s t h
    simp only [run, Option.some.injEq] at h
    subst h
    simp [launches]
  | cons a rest ih =>
    intro s t h
    obtain ⟨u, hu, hrest⟩ := run_cons env s t a rest h
    rw [ih u t hrest, step_loops_length env s u a hu, launches_cons env a rest]
    omega

/-- C1. Order preservation: take any run of a monitor from `NewMonitor` in which at most one
`Start` succeeds, and let N be the number of notifications the processing loop has taken in
it. If the loop is not in the middle of handling a notification (every notification it took
has been logged), then `GetEventLog` returns exactly N events, and they are the first N
notifications the notifier produced, in the same order, each with the name of the notification
as its path and the string form of its operation as its operation. -/
theorem order_preservation (env : Env) (s0 s : Sys) (tr : List Action)
    (h0 : NewMonitor env = .ok s0) (hone : launches env tr ≤ 1)
    (hrun : run env s0 tr = some s) (hidle : ∀ e, LoopPc.logging e ∉ s.loops) :
    taken tr ≤ (emitted tr).length ∧
    (view (GetEventLog s).2.heap (GetEventLog s).1).length = taken tr ∧
    (view (GetEventLog s).2.heap (GetEventLog s).1).map (fun e => (e.Path, e.Operation)) =
      ((emitted tr).take (taken tr)).map (fun n => (n.Name, env.opString n.Op)) ∧
    ∀ i : Nat, ((view (GetEventLog s).2.heap (GetEventLog s).1)[i]?).map
        (fun e : FileEvent => (e.Path, e.Operation)) =
      (((emitted tr).take (taken tr))[i]?).map
        (fun n : Notification => (n.Name, env.opString n.Op)) := by
  have hs0 := NewMonitor_ok env s0 h0
  subst hs0
  have hok : SliceOk s.heap s.eventLog := run_ok env tr newSys s (by decide) hrun
  obtain ⟨hseen, hcount⟩ := run_seen env tr newSys s (by decide)
    (by simpa [newSys] using hone) hrun
  have hfl : inflightOf (s.loops.headD .select) = [] := by
    cases hpc : s.loops.headD .select with
    | logging e =>
      exfalso
      apply hidle e
      match hloops : s.loops with
      | [] => rw [hloops] at hpc; simp at hpc
      | x :: _ => rw [hloops] at hpc; simp at hpc; simp [hpc]
    | _ => rfl
  have hseen0 : newSys.seen env = [] := rfl
  have hcount0 : newSys.takenCount = 0 := rfl
  rw [hseen0, List.nil_append] at hseen
  rw [hcount0, Nat.zero_add] at hcount
  simp only [Sys.seen, hfl, List.map_nil, List.append_nil] at hseen
  simp only [Sys.takenCount, hfl, List.length_nil, Nat.add_zero] at hcount
  have hlen : taken tr ≤ (emitted tr).length := by
    have := congrArg List.length hseen
    simp only [List.length_append, List.length_map] at this
    omega
  have hmap : s.log.map FileEvent.key =
      ((emitted tr).take (taken tr)).map (Notification.key env) := by
    have h1 := congrArg (List.take (taken tr)) hseen
    rw [List.take_left' (by simpa using hcount)] at h1
    rw [h1, List.map_take]
  rw [view_GetEventLog s hok]
  refine ⟨hlen, hcount, hmap, ?_⟩
  intro i
  have h2 := congrArg (fun l => l[i]?) hmap
  simp only [List.getElem?_map] at h2
  exact h2

/-! ## Snapshots -/

theorem runCalls_snaps (env : Env) (calls : List LogCall) :
    ∀ s : Sys, SliceOk s.heap s.eventLog →
      (runCalls env s calls).2 = appendedBefore s.log calls := by
  induction calls with
  | nil => intro s _; rfl
  | cons c rest ih =>
    intro s hok
    cases c with
    | append e =>
      simp only [runCalls, appendedBefore]
      rw [ih (logEvent env s e) (ok_logEvent env s e hok), log_logEvent env s e hok]
    | snapshot =>
      simp only [runCalls, appendedBefore]
      rw [ih (GetEventLog s).2 (ok_GetEventLog s hok), log_GetEventLog s hok,
        view_GetEventLog s hok]

theorem appendedBefore_mem (calls : List LogCall) :
    ∀ (acc x : List FileEvent), x ∈ appendedBefore acc calls → acc <+: x := by
  induction calls with
  | nil => intro acc x hx; simp [appendedBefore] at hx
  | cons c rest ih =>
    intro acc x hx
    cases c with
    | append e =>
      simp only [appendedBefore] at hx
      exact (List.prefix_append acc [e]).trans (ih _ x hx)
    | snapshot =>
      simp only [appendedBefore, List.mem_cons] at hx
      rcases hx with rfl | hx
      · exact List.prefix_refl _
      · exact ih acc x hx

theorem appendedBefore_pairwise (calls : List LogCall) :
    ∀ acc : List FileEvent,
      (appendedBefore acc calls).Pairwise (fun a b => a <+: b) := by
  induction calls with
  | nil => intro acc; simp [appendedBefore]
  | cons c rest ih =>
    intro acc
    cases c with
    | append e => simpa [appendedBefore] using ih (acc ++ [e])
    | snapshot =>
      simp only [appendedBefore, List.pairwise_cons]
      exact ⟨fun x hx => appendedBefore_mem rest acc x hx, ih acc⟩

/-- C2. Snapshot isolation: for every sequence of `logEvent` and `GetEventLog` calls on one
monitor, each snapshot returned is exactly the log at the start followed by the events appended
before it, in append order; a snapshot returned earlier is an initial segment of every snapshot
returned later; and the lengths of successive snapshots never decrease. -/
theorem snapshot_isolation (env : Env) (s : Sys) (calls : List LogCall)
    (hok : SliceOk s.heap s.eventLog) :
    (runCalls env s calls).2 = appendedBefore s.log calls ∧
    (runCalls env s calls).2.Pairwise (fun a b => a <+: b) ∧
    (runCalls env s calls).2.Pairwise (fun a b => a.length ≤ b.length) := by
  have h1 := runCalls_snaps env calls s hok
  have h2 : (runCalls env s calls).2.Pairwise (fun a b => a <+: b) := by
    rw [h1]; exact appendedBefore_pairwise calls s.log
  exact ⟨h1, h2, h2.imp (fun h => h.length_le)⟩

/-! ## After the processing loop has exited -/

/-- A goroutine that has returned makes no move. -/
theorem exited_no_move (env : Env) (s t : Sys) (i : Nat) (la : LoopAct)
    (hdead : ∀ pc ∈ s.loops, pc = LoopPc.exited) (h : step env s (.loop i la) = some t) :
    False := by
  obtain ⟨pc, hpc, h⟩ := step_loop env s t i la h
  have hex : pc = LoopPc.exited := hdead pc (List.get?_mem hpc)
  subst hex
  cases la <;> simp [processEvents] at h

/-- When every processing loop has returned, a move that launches no loop leaves the log,
the deliveries and the loops as they are, and takes nothing from the notifier. -/
theorem step_dead (env : Env) (s t : Sys) (a : Action) (hok : SliceOk s.heap s.eventLog)
    (hdead : ∀ pc ∈ s.loops, pc = LoopPc.exited) (hno : isLaunch env a = false)
    (h : step env s a = some t) :
    t.log = s.log ∧ t.received = s.received ∧ t.loops = s.loops ∧
      t.watcher.Events = s.watcher.Events ++ emitted [a] := by
  cases a with
  | start path =>
    simp only [step, Option.some.injEq] at h
    obtain ⟨c, w, o, hS⟩ := Start_snd env s path
    have hE : (startErr env path).isNone = false := hno
    rw [← h, hS, hE]
    simp [Sys.log, emitted]
  | loop i la => exact (exited_no_move env s t i la hdead h).elim
  | getLog =>
    simp only [step, Option.some.injEq] at h
    rw [← h]
    exact ⟨log_GetEventLog s hok, rfl, rfl, by simp [GetEventLog, emitted]⟩
  | callStop =>
    simp only [step, Option.some.injEq] at h; rw [← h]
    simp [Sys.log, emitted]
  | stop j =>
    obtain ⟨_, rfl⟩ := step_stop env s t j h
    simp [Sys.log, emitted]
  | emit n =>
    simp only [step] at h
    split at h
    · cases h
    · simp only [Option.some.injEq] at h; rw [← h]
      simp [Sys.log, emitted]
  | fail err =>
    simp only [step] at h
    split at h
    · cases h
    · simp only [Option.some.injEq] at h; rw [← h]
      simp [Sys.log, emitted]
  | closeEvents =>
    simp only [step, Option.some.injEq] at h; rw [← h]
    simp [Sys.log, emitted]
  | closeErrors =>
    simp only [step, Option.some.injEq] at h; rw [← h]
    simp [Sys.log, emitted]

theorem launches_zero_cons (env : Env) (a : Action) (tr : List Action)
    (h : launches env (a :: tr) = 0) : isLaunch env a = false ∧ launches env tr = 0 := by
  rw [launches_cons] at h
  have h1 : launches env [a] = 0 := by omega
  have h2 : launches env tr = 0 := by omega
  refine ⟨?_, h2⟩
  cases hl : isLaunch env a with
  | false => rfl
  | true => simp [launches, hl] at h1

theorem run_dead (env : Env) (tr : List Action) :
    ∀ s t : Sys, SliceOk s.heap s.eventLog → (∀ pc ∈ s.loops, pc = LoopPc.exited) →
      launches env tr = 0 → run env s tr = some t →
      t.log = s.log ∧ t.received = s.received ∧ t.loops = s.loops ∧
        t.watcher.Events = s.watcher.Events ++ emitted tr := by
  induction tr with
  | nil =>
    intro s t _ _ _ h
    simp only [run, Option.some.injEq] at h
    subst h
    simp [emitted]
  | cons a rest ih =>
    intro s t hok hdead hno h
    obtain ⟨u, hu, hrest⟩ := run_cons env s t a rest h
    obtain ⟨hna, hnr⟩ := launches_zero_cons env a rest hno
    obtain ⟨h1, h2, h3, h4⟩ := step_dead env s u a hok hdead hna hu
    obtain ⟨h5, h6, h7, h8⟩ := ih u t (step_ok env s u a hok hu) (by rw [h3]; exact hdead)
      hnr hrest
    rw [h5, h6, h7, h8, h1, h2, h3, h4, emitted_cons a rest]
    simp

/-- C8. Loop termination: when the single processing loop, waiting in its `select`, takes the
stop-signal branch, or finds the notification feed closed, or finds the failure feed closed,
it returns at once; the log, the deliveries and the notifications pending in the notifier are
as before; and in every later run in which no `Start` succeeds, whatever the notifier still
holds or produces, nothing is appended to the log or delivered. -/
theorem loop_termination (env : Env) (s : Sys) (la : LoopAct) (tr : List Action)
    (hok : SliceOk s.heap s.eventLog) (hl : s.loops = [LoopPc.select])
    (hla : (∃ j, la = .recvDone j ∧ s.stops.get? j = some .sending) ∨
      (la = .eventsClosed ∧ s.watcher.eventsClosed = true) ∨
      (la = .errorsClosed ∧ s.watcher.errorsClosed = true))
    (hno : launches env tr = 0) :
    ∃ t, step env s (.loop 0 la) = some t ∧ t.loops = [LoopPc.exited] ∧
      t.log = s.log ∧ t.delivered = s.delivered ∧ t.watcher.Events = s.watcher.Events ∧
      ∀ u, run env t tr = some u →
        u.loops = [LoopPc.exited] ∧ u.log = s.log ∧ u.delivered = s.delivered ∧
        u.watcher.Events = s.watcher.Events ++ emitted tr := by
  have key : ∀ t : Sys, SliceOk t.heap t.eventLog → t.loops = [LoopPc.exited] →
      t.log = s.log → t.received = s.received → t.watcher.Events = s.watcher.Events →
      ∀ u, run env t tr = some u →
        u.loops = [LoopPc.exited] ∧ u.log = s.log ∧ u.delivered = s.delivered ∧
        u.watcher.Events = s.watcher.Events ++ emitted tr := by
    intro t htok htl htlog htr hte u hu
    obtain ⟨h1, h2, h3, h4⟩ := run_dead env tr t u htok (by rw [htl]; simp) hno hu
    exact ⟨by rw [h3, htl], by rw [h1, htlog], by simp [Sys.delivered, h2, htr],
      by rw [h4, hte]⟩
  rcases hla with ⟨j, rfl, hj⟩ | ⟨rfl, hc⟩ | ⟨rfl, hc⟩
  · have hj2 : s.stops[j]? = some StopPc.sending := by simpa using hj
    refine ⟨{ s with stops := s.stops.set j .closing, loops := s.loops.set 0 .exited },
      by simp [step, hl, processEvents, hj2], by simp [hl], rfl, rfl, rfl, ?_⟩
    exact key _ hok (by simp [hl]) rfl rfl rfl
  · refine ⟨{ s with loops := s.loops.set 0 .exited },
      by simp [step, hl, processEvents, hc], by simp [hl], rfl, rfl, rfl, ?_⟩
    exact key _ hok (by simp [hl]) rfl rfl rfl
  · refine ⟨{ s with loops := s.loops.set 0 .exited },
      by simp [step, hl, processEvents, hc], by simp [hl], rfl, rfl, rfl, ?_⟩
    exact key _ hok (by simp [hl]) rfl rfl rfl

/-! ## Stop -/

theorem stopCalls_cons (a : Action) (tr : List Action) :
    stopCalls (a :: tr) = stopCalls [a] + stopCalls tr := by
  cases a <;> simp [stopCalls]
  omega

/-- When every processing loop has returned and no call of `Stop` is past its send, a move
that launches no loop can only add a call of `Stop` blocked in its send. -/
theorem step_dead_stops (env : Env) (s t : Sys) (a : Action)
    (hdead : ∀ pc ∈ s.loops, pc = LoopPc.exited) (hnc : ∀ pc ∈ s.stops, pc ≠ StopPc.closing)
    (hno : isLaunch env a = false) (h : step env s a = some t) :
    t.stops = s.stops ++ List.replicate (stopCalls [a]) StopPc.sending ∧
      t.watcher.released = s.watcher.released ∧ t.loops = s.loops := by
  cases a with
  | start path =>
    simp only [step, Option.some.injEq] at h
    obtain ⟨c, w, o, hS⟩ := Start_snd env s path
    have hE : (startErr env path).isNone = false := hno
    rw [← h, hS, hE]
    simp [stopCalls]
  | loop i la => exact (exited_no_move env s t i la hdead h).elim
  | getLog =>
    simp only [step, Option.some.injEq] at h
    rw [← h]
    simp [GetEventLog, stopCalls]
  | callStop =>
    simp only [step, Option.some.injEq] at h; rw [← h]
    simp [stopCalls]
  | stop j =>
    obtain ⟨hj, _⟩ := step_stop env s t j h
    exact absurd rfl (hnc _ (List.get?_mem hj))
  | emit n =>
    simp only [step] at h
    split at h
    · cases h
    · simp only [Option.some.injEq] at h; rw [← h]
      simp [stopCalls]
  | fail err =>
    simp only [step] at h
    split at h
    · cases h
    · simp only [Option.some.injEq] at h; rw [← h]
      simp [stopCalls]
  | closeEvents =>
    simp only [step, Option.some.injEq] at h; rw [← h]
    simp [stopCalls]
  | closeErrors =>
    simp only [step, Option.some.injEq] at h; rw [← h]
    simp [stopCalls]

theorem run_dead_stops (env : Env) (tr : List Action) :
    ∀ s t : Sys, (∀ pc ∈ s.loops, pc = LoopPc.exited) →
      (∀ pc ∈ s.stops, pc ≠ StopPc.closing) → launches env tr = 0 → run env s tr = some t →
      t.stops = s.stops ++ List.replicate (stopCalls tr) StopPc.sending ∧
        t.watcher.released = s.watcher.released ∧ t.loops = s.loops := by
  induction tr with
  | nil =>
    intro s t _ _ _ h
    simp only [run, Option.some.injEq] at h
    subst h
    simp [stopCalls]
  | cons a rest ih =>
    intro s t hdead hnc hno h
    obtain ⟨u, hu, hrest⟩ := run_cons env s t a rest h
    obtain ⟨hna, hnr⟩ := launches_zero_cons env a rest hno
    obtain ⟨h1, h2, h3⟩ := step_dead_stops env s u a hdead hnc hna hu
    have hnc2 : ∀ pc ∈ u.stops, pc ≠ StopPc.closing := by
      intro pc hpc
      rw [h1, List.mem_append] at hpc
      rcases hpc with hpc | hpc
      · exact hnc pc hpc
      · rw [List.eq_of_mem_replicate hpc]; simp
    obtain ⟨h4, h5, h6⟩ := ih u t (by rw [h3]; exact hdead) hnc2 hnr hrest
    rw [h4, h5, h6, h1, h2, h3, stopCalls_cons a rest, List.replicate_add]
    simp

/-- The watcher is released only by a call of `Stop` that is past its send. -/
theorem step_released (env : Env) (s t : Sys) (a : Action) (h : step env s a = some t)
    (hrel : t.watcher.released ≠ s.watcher.released) :
    ∃ j, a = .stop j ∧ s.stops.get? j = some StopPc.closing := by
  cases a with
  | start path =>
    simp only [step, Option.some.injEq] at h
    obtain ⟨c, w, o, hS⟩ := Start_snd env s path
    rw [← h, hS] at hrel
    exact absurd rfl hrel
  | loop i la =>
    obtain ⟨pc, hpc, h⟩ := step_loop env s t i la h
    rcases processEvents_cases env s t i pc la h with
      ⟨_, _, _, _, _, _, _, rfl⟩ | ⟨_, _, _, rfl⟩ | ⟨_, _, _, _, _, _, rfl⟩ | ⟨_, _, _, rfl⟩ |
      ⟨_, _, _, _, rfl⟩ | ⟨e, _, _, rfl⟩ | ⟨_, _, _, _, rfl⟩
    all_goals exact absurd rfl hrel
  | getLog =>
    simp only [step, Option.some.injEq] at h
    rw [← h] at hrel
    exact absurd rfl hrel
  | callStop =>
    simp only [step, Option.some.injEq] at h
    rw [← h] at hrel
    exact absurd rfl hrel
  | stop j => exact ⟨j, rfl, (step_stop env s t j h).1⟩
  | emit n =>
    simp only [step] at h
    split at h
    · cases h
    · simp only [Option.some.injEq] at h
      rw [← h] at hrel
      exact absurd rfl hrel
  | fail err =>
    simp only [step] at h
    split at h
    · cases h
    · simp only [Option.some.injEq] at h
      rw [← h] at hrel
      exact absurd rfl hrel
  | closeEvents =>
    simp only [step, Option.some.injEq] at h
    rw [← h] at hrel
    exact absurd rfl hrel
  | closeErrors =>
    simp only [step, Option.some.injEq] at h
    rw [← h] at hrel
    exact absurd rfl hrel

/-- A call of `Stop` gets past its send only together with a loop waiting in its `select`. -/
theorem step_past_send (env : Env) (s t : Sys) (a : Action) (j : Nat)
    (h : step env s a = some t) (hs : s.stops.get? j = some StopPc.sending)
    (ht : t.stops.get? j ≠ some StopPc.sending) :
    ∃ i, a = .loop i (.recvDone j) ∧ s.loops.get? i = some LoopPc.select := by
  cases a with
  | start path =>
    simp only [step, Option.some.injEq] at h
    obtain ⟨c, w, o, hS⟩ := Start_snd env s path
    rw [← h, hS] at ht
    exact absurd hs ht
  | loop i la =>
    obtain ⟨pc, hpc, h⟩ := step_loop env s t i la h
    rcases processEvents_cases env s t i pc la h with
      ⟨_, _, _, _, _, _, _, rfl⟩ | ⟨_, _, _, rfl⟩ | ⟨_, _, _, _, _, _, rfl⟩ | ⟨_, _, _, rfl⟩ |
      ⟨k, rfl, rfl, _, rfl⟩ | ⟨e, _, _, rfl⟩ | ⟨_, _, _, _, rfl⟩
    · exact absurd hs ht
    · exact absurd hs ht
    · exact absurd hs ht
    · exact absurd hs ht
    · by_cases hkj : k = j
      · subst hkj; exact ⟨i, rfl, hpc⟩
      · exfalso
        apply ht
        simp only [List.get?_eq_getElem?] at hs ⊢
        rw [List.getElem?_set_ne hkj]
        exact hs
    · exact absurd hs ht
    · exact absurd hs ht
  | getLog =>
    simp only [step, Option.some.injEq] at h
    rw [← h] at ht
    exact absurd hs ht
  | callStop =>
    simp only [step, Option.some.injEq] at h
    rw [← h] at ht
    exfalso
    apply ht
    simp only [List.get?_eq_getElem?] at hs ⊢
    rw [List.getElem?_append_left (by
      rcases List.getElem?_eq_some.mp hs with ⟨hlt, _⟩
      exact hlt)]
    exact hs
  | stop k =>
    obtain ⟨hk, rfl⟩ := step_stop env s t k h
    exfalso
    apply ht
    have hkj : k ≠ j := by
      rintro rfl
      rw [hs] at hk
      cases hk
    simp only [List.get?_eq_getElem?] at hs ⊢
    rw [List.getElem?_set_ne hkj]
    exact hs
  | emit n =>
    simp only [step] at h
    split at h
    · cases h
    · simp only [Option.some.injEq] at h
      rw [← h] at ht
      exact absurd hs ht
  | fail err =>
    simp only [step] at h
    split at h
    · cases h
    · simp only [Option.some.injEq] at h
      rw [← h] at ht
      exact absurd hs ht
  | closeEvents =>
    simp only [step, Option.some.injEq] at h
    rw [← h] at ht
    exact absurd hs ht
  | closeErrors =>
    simp only [step, Option.some.injEq] at h
    rw [← h] at ht
    exact absurd hs ht

theorem step_dead_loops (env : Env) (s t : Sys) (a : Action)
    (hdead : ∀ pc ∈ s.loops, pc = LoopPc.exited) (hno : isLaunch env a = false)
    (h : step env s a = some t) : t.loops = s.loops := by
  cases a with
  | start path =>
    simp only [step, Option.some.injEq] at h
    obtain ⟨c, w, o, hS⟩ := Start_snd env s path
    have hE : (startErr env path).isNone = false := hno
    rw [← h, hS, hE]
    simp
  | loop i la => exact (exited_no_move env s t i la hdead h).elim
  | getLog => simp only [step, Option.some.injEq] at h; rw [← h]; rfl
  | callStop => simp only [step, Option.some.injEq] at h; rw [← h]
  | stop j => obtain ⟨_, rfl⟩ := step_stop env s t j h; rfl
  | emit n =>
    simp only [step] at h
    split at h
    · cases h
    · simp only [Option.some.injEq] at h; rw [← h]
  | fail err =>
    simp only [step] at h
    split at h
    · cases h
    · simp only [Option.some.injEq] at h; rw [← h]
  | closeEvents => simp only [step, Option.some.injEq] at h; rw [← h]
  | closeErrors => simp only [step, Option.some.injEq] at h; rw [← h]

theorem run_dead_sending (env : Env) (tr : List Action) :
    ∀ s t : Sys, (∀ pc ∈ s.loops, pc = LoopPc.exited) → launches env tr = 0 →
      run env s tr = some t →
      ∀ j, s.stops.get? j = some StopPc.sending → t.stops.get? j = some StopPc.sending := by
  induction tr with
  | nil =>
    intro s t _ _ h j hj
    simp only [run, Option.some.injEq] at h
    subst h
    exact hj
  | cons a rest ih =>
    intro s t hdead hno h j hj
    obtain ⟨u, hu, hrest⟩ := run_cons env s t a rest h
    obtain ⟨hna, hnr⟩ := launches_zero_cons env a rest hno
    have hl := step_dead_loops env s u a hdead hna hu
    have huj : u.stops.get? j = some StopPc.sending := by
      by_contra hne
      obtain ⟨i, _, hi⟩ := step_past_send env s u a j hu hj hne
      have := hdead _ (List.get?_mem hi)
      cases this
    exact ih u t (by rw [hl]; exact hdead) hnr hrest j huj

/-- C9. Stop hazard. In `Stop` the send on `m.done` comes first and the watcher is closed only
after it: the watcher is released only by a call of `Stop` that is past its send, and a call
gets past its send only together with a loop that is waiting in its `select`. So when no
processing loop is waiting and none will be (every loop that was launched has returned, or none
was launched, and no later `Start` succeeds), a call of `Stop` blocked in its send stays blocked
in every run: it never returns. If moreover no call is already past its send, every call of
`Stop` made in the run blocks in its send too, and the watcher is never released. -/
theorem stop_hazard (env : Env) (s u : Sys) (tr : List Action)
    (hdead : ∀ pc ∈ s.loops, pc = LoopPc.exited) (hno : launches env tr = 0)
    (hrun : run env s tr = some u) :
    (∀ (x y : Sys) (a : Action), step env x a = some y →
        y.watcher.released ≠ x.watcher.released →
        ∃ j, a = .stop j ∧ x.stops.get? j = some StopPc.closing) ∧
    (∀ (x y : Sys) (a : Action) (j : Nat), step env x a = some y →
        x.stops.get? j = some StopPc.sending → y.stops.get? j ≠ some StopPc.sending →
        ∃ i, a = .loop i (.recvDone j) ∧ x.loops.get? i = some LoopPc.select) ∧
    (∀ j, s.stops.get? j = some StopPc.sending → u.stops.get? j = some StopPc.sending) ∧
    ((∀ pc ∈ s.stops, pc ≠ StopPc.closing) →
      u.stops = s.stops ++ List.replicate (stopCalls tr) StopPc.sending ∧
      u.watcher.released = s.watcher.released) := by
  refine ⟨fun x y a h hrel => step_released env x y a h hrel,
    fun x y a j h hx hy => step_past_send env x y a j h hx hy,
    run_dead_sending env tr s u hdead hno hrun, ?_⟩
  intro hnc
  obtain ⟨h1, h2, _⟩ := run_dead_stops env tr s u hdead hnc hno hrun
  exact ⟨h1, h2⟩

/-! ## Start and its target -/

/-- Error precedence where the guard of `Start` applies: when `os.Stat` fails with the
not-exist error on the resolved absolute path, `Start` returns the error
"directory does not exist: " followed by the absolute path, and the state is unchanged:
`watcher.Add` has not been invoked, no processing loop has been launched, and the event log is
as before. -/
theorem Start_missing_target (env : Env) (s : Sys) (path absPath : String)
    (habs : env.abs path = .ok absPath) (hmiss : env.stat absPath = .notExist) :
    (Start env s path).1 = some ("directory does not exist: " ++ absPath) ∧
    (Start env s path).2 = s ∧
    (Start env s path).2.watcher.addCalls = s.watcher.addCalls ∧
    (Start env s path).2.loops = s.loops ∧
    (Start env s path).2.log = s.log := by
  have h : Start env s path = (some ("directory does not exist: " ++ absPath), s) := by
    unfold Start
    simp [habs, hmiss, IsNotExist]
  rw [h]
  exact ⟨rfl, rfl, rfl, rfl, rfl⟩

/-- Whatever exists is registered: when `os.Stat` reports anything but the not-exist error
(a directory, a regular file, or another error such as permission denied), `Start` invokes
`watcher.Add` with the absolute path. -/
theorem Start_registers_existing (env : Env) (s : Sys) (path absPath : String)
    (habs : env.abs path = .ok absPath) (hex : env.stat absPath ≠ .notExist) :
    (Start env s path).2.watcher.addCalls = s.watcher.addCalls ++ [absPath] := by
  unfold Start
  have hn : IsNotExist (env.stat absPath) = false := by
    cases hst : env.stat absPath with
    | notExist => exact absurd hst hex
    | info d => rfl
    | otherErr m => rfl
  simp only [habs, hn, Bool.false_eq_true, if_false]
  cases env.add absPath <;> rfl

/-- C4 (the code at the failing input). The path `/tmp/f/child` does not exist, because
`/tmp/f` is a regular file; `os.Stat` fails on it with the not-a-directory error, which
`os.IsNotExist` does not recognise. `Start` skips its guard, invokes `watcher.Add` on the path,
and returns the error of the watcher instead of "directory does not exist: /tmp/f/child". -/
theorem Start_registers_missing_child :
    childEnv.abs "/tmp/f/child" = .ok "/tmp/f/child" ∧
    childEnv.stat "/tmp/f" = .info false ∧
    childEnv.stat "/tmp/f/child" = .otherErr "stat /tmp/f/child: not a directory" ∧
    IsNotExist (childEnv.stat "/tmp/f/child") = false ∧
    (Start childEnv newSys "/tmp/f/child").1 =
      some "failed to add directory to watcher: not a directory" ∧
    (Start childEnv newSys "/tmp/f/child").1 ≠
      some "directory does not exist: /tmp/f/child" ∧
    (Start childEnv newSys "/tmp/f/child").2.watcher.addCalls = ["/tmp/f/child"] ∧
    (Start childEnv newSys "/tmp/f/child").2.loops = [] :=
  ⟨rfl, by decide, by decide, by decide, by decide, by decide, by decide, by decide⟩

/-- C5 (the code at the failing input). The path `/tmp/f` exists and is a regular file, not a
directory; `Start` returns no error, has invoked `watcher.Add` on it, and has launched the
processing loop. -/
theorem Start_accepts_regular_file :
    sampleEnv.stat "/tmp/f" = .info false ∧
    (Start sampleEnv newSys "/tmp/f").1 = none ∧
    (Start sampleEnv newSys "/tmp/f").2.watcher.addCalls = ["/tmp/f"] ∧
    (Start sampleEnv newSys "/tmp/f").2.watcher.watched = ["/tmp/f"] ∧
    (Start sampleEnv newSys "/tmp/f").2.loops = [LoopPc.select] := by
  decide

/-! ## The entry point -/

theorem procStep_never_stops (p q : Proc) (a : ProcAct) (hch : p.ch = [])
    (h : procStep p a = some q) : q.ch = [] ∧ q.pc = MainPc.killed := by
  cases a with
  | interrupt =>
    unfold procStep at h
    cases hpc : p.pc <;> simp [hpc] at h <;> subst h <;> exact ⟨hch, rfl⟩
  | recv =>
    unfold procStep at h
    rw [hch] at h
    cases hpc : p.pc <;> simp [hpc] at h

/-- From the moment `main` waits on `ch`, no run of the process reaches the call of
`monitor.Stop`: the process keeps waiting or is terminated. -/
theorem main_never_stops (tr : List ProcAct) :
    ∀ p q : Proc, p.ch = [] → p.pc ≠ MainPc.stopping → procRun p tr = some q →
      q.pc ≠ MainPc.stopping := by
  induction tr with
  | nil =>
    intro p q _ hpc h
    simp only [procRun, Option.some.injEq] at h
    subst h
    exact hpc
  | cons a rest ih =>
    intro p q hch _ h
    simp only [procRun] at h
    cases hu : procStep p a with
    | none => simp [hu] at h
    | some u =>
      simp only [hu, Option.some_bind] at h
      obtain ⟨h1, h2⟩ := procStep_never_stops p u a hch hu
      exact ih u q h1 (by rw [h2]; simp) h

/-- C10 (the code at the failing input). When `main` waits on its signal channel and an
interrupt is delivered, the receive cannot complete (before or after the interrupt), the
process is terminated, and `monitor.Stop` is not reached. -/
theorem main_interrupt_kills :
    procStep mainWaiting .recv = none ∧
    procStep mainWaiting .interrupt = some ⟨.killed, []⟩ ∧
    procRun mainWaiting [.interrupt, .recv] = none ∧
    ∀ (tr : List ProcAct) (q : Proc), procRun mainWaiting tr = some q →
      q.pc ≠ MainPc.stopping :=
  ⟨rfl, rfl, rfl, fun tr q h => main_never_stops tr mainWaiting q rfl (by decide) h⟩

/-! ## Errors of the notifier -/

theorem processEvents_stderr (env : Env) (s : Sys) (x : List String) (i : Nat) (pc : LoopPc)
    (la : LoopAct) :
    (processEvents env { s with stderr := x } i pc la).map Sys.quiet =
      (processEvents env s i pc la).map Sys.quiet := by
  cases pc <;> cases la <;> simp only [processEvents, Option.map_none']
  · split
    · rfl
    · split <;> rfl
  · split
    · rfl
    · split <;> rfl
  · split <;> rfl
  · split <;> rfl
  · split <;> rfl
  · rfl
  · rfl

/-- The messages reported so far have no influence on any move. -/
theorem step_stderr (env : Env) (s : Sys) (x : List String) (a : Action) :
    (step env { s with stderr := x } a).map Sys.quiet = (step env s a).map Sys.quiet := by
  cases a with
  | start path =>
    simp only [step, Option.map_some', Option.some.injEq]
    unfold Start
    cases env.abs path with
    | error err => rfl
    | ok absPath =>
      dsimp only
      cases IsNotExist (env.stat absPath) with
      | true => rfl
      | false =>
        simp only [Bool.false_eq_true, if_false]
        cases env.add absPath <;> rfl
  | loop i la =>
    show (match s.loops.get? i with
      | none => none
      | some pc => processEvents env { s with stderr := x } i pc la).map Sys.quiet =
      (match s.loops.get? i with
      | none => none
      | some pc => processEvents env s i pc la).map Sys.quiet
    cases s.loops.get? i with
    | none => rfl
    | some pc => exact processEvents_stderr env s x i pc la
  | getLog => rfl
  | callStop => rfl
  | stop j =>
    show (match s.stops.get? j with
      | none => none
      | some pc => Stop { s with stderr := x } j pc).map Sys.quiet =
      (match s.stops.get? j with
      | none => none
      | some pc => Stop s j pc).map Sys.quiet
    cases s.stops.get? j with
    | none => rfl
    | some pc => cases pc <;> rfl
  | emit n =>
    simp only [step]
    split <;> rfl
  | fail err =>
    simp only [step]
    split <;> rfl
  | closeEvents => rfl
  | closeErrors => rfl

theorem quiet_eq (s t : Sys) (h : s.quiet = t.quiet) : t = { s with stderr := t.stderr } := by
  cases s
  cases t
  simp only [Sys.quiet, Sys.mk.injEq] at h
  simp only [Sys.mk.injEq]
  tauto

/-- States that differ only in the messages reported have the same runs, up to those
messages. -/
theorem run_quiet (env : Env) (tr : List Action) :
    ∀ s t : Sys, s.quiet = t.quiet →
      (run env s tr).map Sys.quiet = (run env t tr).map Sys.quiet := by
  induction tr with
  | nil =>
    intro s t h
    simpa [run] using h
  | cons a rest ih =>
    intro s t h
    have hst := step_stderr env s t.stderr a
    rw [← quiet_eq s t h] at hst
    simp only [run]
    cases hs : step env s a with
    | none =>
      cases ht : step env t a with
      | none => rfl
      | some v => rw [hs, ht] at hst; cases hst
    | some u =>
      cases ht : step env t a with
      | none => rw [hs, ht] at hst; cases hst
      | some v =>
        rw [hs, ht] at hst
        simp only [Option.map_some', Option.some.injEq] at hst
        simpa using ih u v hst.symm

/-- C7. Notifier failures are non-fatal: when a loop waiting in its `select` receives an
error from the open failure feed, it reports the error with `log.Printf` and nothing else
changes: nothing is appended to the log, nothing is published, the loop is still waiting in
its `select`, and the pending notifications are untouched. Every run from the state after the
error is, up to the reported messages, the run from the state in which the error never
occurred: all later notifications are appended and published in the same way. -/
theorem notifier_error_nonfatal (env : Env) (s : Sys) (i : Nat) (err : String)
    (rest : List String) (hpc : s.loops.get? i = some LoopPc.select)
    (hopen : s.watcher.errorsClosed = false) (herr : s.watcher.Errors = err :: rest) :
    ∃ t, step env s (.loop i .recvError) = some t ∧
      t = { s with watcher.Errors := rest, stderr := s.stderr ++ ["Error: " ++ err ++ "\n"] } ∧
      t.log = s.log ∧ t.delivered = s.delivered ∧ t.loops = s.loops ∧
      t.loops.get? i = some LoopPc.select ∧ t.watcher.Events = s.watcher.Events ∧
      ∀ tr, (run env t tr).map Sys.quiet =
        (run env { s with watcher.Errors := rest } tr).map Sys.quiet := by
  refine ⟨{ s with watcher.Errors := rest, stderr := s.stderr ++ ["Error: " ++ err ++ "\n"] },
    ?_, rfl, rfl, rfl, rfl, hpc, rfl, fun tr => run_quiet env tr _ _ rfl⟩
  have hpc2 : s.loops[i]? = some LoopPc.select := by simpa using hpc
  simp [step, hpc2, processEvents, hopen, herr]

/-! ## The loop makes progress -/

theorem run_append (env : Env) (tr1 tr2 : List Action) :
    ∀ s : Sys, run env s (tr1 ++ tr2) = (run env s tr1).bind fun t => run env t tr2 := by
  induction tr1 with
  | nil => intro s; rfl
  | cons a rest ih =>
    intro s
    simp only [List.cons_append, run]
    cases step env s a with
    | none => rfl
    | some u => simpa using ih u

/-- One notification, from its production to its delivery. -/
theorem handle_one (env : Env) (s : Sys) (c : Nat) (p : Notification × Nat)
    (hl : s.loops = [LoopPc.select]) (hopen : s.watcher.eventsClosed = false)
    (hev : s.watcher.Events = []) :
    run env s [.emit p.1, .loop 0 (.recvEvent p.2), .loop 0 .logEvent, .loop 0 (.send c)] =
      some { logEvent env s (eventOf env p) with
        received := s.received ++ [(c, eventOf env p)] } := by
  obtain ⟨heap, w, el, loops, recv, stops, out, errs⟩ := s
  obtain ⟨evs, ers, ec, erc, ac, wd, rl⟩ := w
  simp only at hl hopen hev
  subst hl hopen hev
  simp [run, step, processEvents, logEvent, eventOf]

/-- Every finite sequence of notifications can be handled: from a state in which the single
loop waits and the open notification feed is empty, the schedule `handleAll` runs to the end,
and it appends the events of the notifications, in order, to the log and to the deliveries. -/
theorem handleAll_runs (env : Env) (c : Nat) (ps : List (Notification × Nat)) :
    ∀ s : Sys, SliceOk s.heap s.eventLog → s.loops = [LoopPc.select] →
      s.watcher.eventsClosed = false → s.watcher.Events = [] →
      ∃ t, run env s (handleAll c ps) = some t ∧ t.loops = [LoopPc.select] ∧
        t.log = s.log ++ ps.map (eventOf env) ∧
        t.delivered = s.delivered ++ ps.map (eventOf env) := by
  induction ps with
  | nil =>
    intro s _ hl _ _
    exact ⟨s, rfl, hl, by simp, by simp⟩
  | cons p rest ih =>
    intro s hok hl hopen hev
    have h1 := handle_one env s c p hl hopen hev
    have hok2 := ok_logEvent env s (eventOf env p) hok
    have hlog2 := log_logEvent env s (eventOf env p) hok
    obtain ⟨t, ht, htl, htlog, htd⟩ := ih
      { logEvent env s (eventOf env p) with received := s.received ++ [(c, eventOf env p)] }
      hok2 hl hopen hev
    refine ⟨t, ?_, htl, ?_, ?_⟩
    · simp only [handleAll]
      rw [run_append, h1]
      exact ht
    · rw [htlog]
      have : Sys.log { logEvent env s (eventOf env p) with
          received := s.received ++ [(c, eventOf env p)] } = s.log ++ [eventOf env p] := hlog2
      rw [this]
      simp
    · rw [htd]
      simp [Sys.delivered]

/-- When a loop is waiting in its `select`, a call of `Stop` goes through: the loop takes the
stop signal and returns, and `Stop` releases the watcher and returns. -/
theorem stop_completes_when_loop_waits :
    (run sampleEnv newSys
        [.start "/tmp/d", .callStop, .loop 0 (.recvDone 0), .stop 0]).map
      (fun s => (s.loops, s.stops, s.watcher.released)) =
      some ([LoopPc.exited], [StopPc.returned], true) := by
  decide

/-! ## The theorems at sample inputs -/

theorem order_preservation_witness :
    NewMonitor sampleEnv = .ok newSys ∧ launches sampleEnv sampleRun ≤ 1 ∧
    run sampleEnv newSys sampleRun = some sampleEnd ∧
    (∀ e, LoopPc.logging e ∉ sampleEnd.loops) ∧
    (view (GetEventLog sampleEnd).2.heap (GetEventLog sampleEnd).1).length = 2 ∧
    (view (GetEventLog sampleEnd).2.heap (GetEventLog sampleEnd).1).map
        (fun e => (e.Path, e.Operation)) =
      [("/tmp/d/a.txt", "CREATE"), ("/tmp/d/a.txt", "REMOVE")] :=
  have hidle : ∀ e, LoopPc.logging e ∉ sampleEnd.loops := by
    have hl : sampleEnd.loops = [LoopPc.select] := by decide
    intro e h
    rw [hl] at h
    simp at h
  have h := order_preservation sampleEnv newSys sampleEnd sampleRun rfl (by decide)
    (by decide) hidle
  ⟨rfl, by decide, by decide, hidle, h.2.1.trans (by decide), h.2.2.1.trans (by decide)⟩

theorem snapshot_isolation_witness :
    SliceOk newSys.heap newSys.eventLog ∧
    (runCalls sampleEnv newSys sampleCalls).2 = appendedBefore newSys.log sampleCalls ∧
    (runCalls sampleEnv newSys sampleCalls).2.Pairwise (fun a b => a <+: b) ∧
    (runCalls sampleEnv newSys sampleCalls).2.Pairwise (fun a b => a.length ≤ b.length) ∧
    appendedBefore newSys.log sampleCalls = [[], [sampleE1], [sampleE1, sampleE2]] :=
  have h := snapshot_isolation sampleEnv newSys sampleCalls (by decide)
  ⟨by decide, h.1, h.2.1, h.2.2, by decide⟩

theorem GetEventLog_independent_copy_witness :
    SliceOk sampleEnd.heap sampleEnd.eventLog ∧
    sampleEnd.log = [sampleE1, sampleE2] ∧
    view (GetEventLog sampleEnd).2.heap (GetEventLog sampleEnd).1 = sampleEnd.log ∧
    (GetEventLog sampleEnd).2 = { sampleEnd with heap := sampleEnd.heap ++ [sampleEnd.log] } ∧
    later sampleEnv (GetEventLog sampleEnd).1 (GetEventLog sampleEnd).2 sampleLater =
      some sampleAfter ∧
    sampleAfter.log = sampleEnd.log ++ loggedOf sampleLater ∧
    view sampleAfter.heap (GetEventLog sampleEnd).1 = storesOn sampleEnd.log sampleLater :=
  have h := GetEventLog_independent_copy sampleEnv sampleEnd (by decide)
  have hl : later sampleEnv (GetEventLog sampleEnd).1 (GetEventLog sampleEnd).2 sampleLater =
      some sampleAfter := by decide
  ⟨by decide, by decide, h.1, h.2.1, hl, (h.2.2.2 sampleLater sampleAfter hl).1,
    (h.2.2.2 sampleLater sampleAfter hl).2⟩

theorem Start_missing_target_witness :
    sampleEnv.abs "/tmp/missing" = .ok "/tmp/missing" ∧
    sampleEnv.stat "/tmp/missing" = .notExist ∧
    (Start sampleEnv newSys "/tmp/missing").1 =
      some ("directory does not exist: " ++ "/tmp/missing") ∧
    (Start sampleEnv newSys "/tmp/missing").2 = newSys ∧
    (Start sampleEnv newSys "/tmp/missing").2.watcher.addCalls = newSys.watcher.addCalls ∧
    (Start sampleEnv newSys "/tmp/missing").2.loops = newSys.loops ∧
    (Start sampleEnv newSys "/tmp/missing").2.log = newSys.log :=
  ⟨rfl, by decide, Start_missing_target sampleEnv newSys "/tmp/missing" "/tmp/missing" rfl
    (by decide)⟩

theorem backpressure_witness :
    NewMonitor sampleEnv = .ok newSys ∧ launches sampleEnv sampleBlockedRun ≤ 1 ∧
    run sampleEnv newSys sampleBlockedRun = some sampleBlocked ∧
    sampleBlocked.log = [sampleE1] ∧ sampleBlocked.delivered = [] ∧
    (sampleBlocked.delivered = sampleBlocked.log ∨
      sampleBlocked.delivered = sampleBlocked.log.dropLast) ∧
    sampleBlocked.log.length ≤ sampleBlocked.delivered.length + 1 ∧
    ((∀ i c, Action.loop i (.send c) ∉ sampleBlockedRun) → sampleBlocked.log.length ≤ 1) ∧
    (sampleBlocked.delivered ≠ sampleBlocked.log →
      ∀ i now, step sampleEnv sampleBlocked (.loop i (.recvEvent now)) = none) :=
  ⟨rfl, by decide, by decide, by decide, by decide,
    backpressure sampleEnv newSys sampleBlocked sampleBlockedRun rfl (by decide) (by decide)⟩

theorem notifier_error_nonfatal_witness :
    sampleFailed.loops.get? 0 = some LoopPc.select ∧
    sampleFailed.watcher.errorsClosed = false ∧
    sampleFailed.watcher.Errors = ["queue overflow"] ∧
    ∃ t, step sampleEnv sampleFailed (.loop 0 .recvError) = some t ∧
      t = { sampleFailed with
        watcher.Errors := []
        stderr := sampleFailed.stderr ++ ["Error: " ++ "queue overflow" ++ "\n"] } ∧
      t.log = sampleFailed.log ∧ t.delivered = sampleFailed.delivered ∧
      t.loops = sampleFailed.loops ∧
      t.loops.get? 0 = some LoopPc.select ∧ t.watcher.Events = sampleFailed.watcher.Events ∧
      ∀ tr, (run sampleEnv t tr).map Sys.quiet =
        (run sampleEnv { sampleFailed with watcher.Errors := [] } tr).map Sys.quiet :=
  ⟨by decide, by decide, by decide,
    notifier_error_nonfatal sampleEnv sampleFailed 0 "queue overflow" [] (by decide)
      (by decide) (by decide)⟩

theorem loop_termination_witness :
    SliceOk sampleClosed.heap sampleClosed.eventLog ∧
    sampleClosed.loops = [LoopPc.select] ∧
    sampleClosed.watcher.eventsClosed = true ∧
    sampleClosed.watcher.Events = [sampleCreate] ∧
    launches sampleEnv [Action.callStop, Action.getLog] = 0 ∧
    ∃ t, step sampleEnv sampleClosed (.loop 0 .eventsClosed) = some t ∧
      t.loops = [LoopPc.exited] ∧
      t.log = sampleClosed.log ∧ t.delivered = sampleClosed.delivered ∧
      t.watcher.Events = sampleClosed.watcher.Events ∧
      ∀ u, run sampleEnv t [Action.callStop, Action.getLog] = some u →
        u.loops = [LoopPc.exited] ∧ u.log = sampleClosed.log ∧
        u.delivered = sampleClosed.delivered ∧
        u.watcher.Events = sampleClosed.watcher.Events ++ emitted [Action.callStop, Action.getLog] :=
  ⟨by decide, by decide, by decide, by decide, by decide,
    loop_termination sampleEnv sampleClosed .eventsClosed [Action.callStop, Action.getLog]
      (by decide) (by decide) (Or.inr (Or.inl ⟨rfl, by decide⟩)) (by decide)⟩

theorem stop_hazard_witness :
    (∀ pc ∈ sampleExited.loops, pc = LoopPc.exited) ∧
    launches sampleEnv sampleStopRun = 0 ∧
    run sampleEnv sampleExited sampleStopRun = some sampleStuck ∧
    (∀ pc ∈ sampleExited.stops, pc ≠ StopPc.closing) ∧
    sampleExited.loops = [LoopPc.exited] ∧
    sampleStuck.stops = [StopPc.sending] ∧
    sampleStuck.watcher.released = false ∧
    sampleStuck.stops =
      sampleExited.stops ++ List.replicate (stopCalls sampleStopRun) StopPc.sending ∧
    sampleStuck.watcher.released = sampleExited.watcher.released :=
  have h := stop_hazard sampleEnv sampleExited sampleStuck sampleStopRun (by decide)
    (by decide) (by decide)
  ⟨by decide, by decide, by decide, by decide, by decide, by decide, by decide,
    h.2.2.2 (by decide)⟩

end FSMonitor
